import Mathlib

/-!
# A verification development for `abates/lang`, package `lex`

The Go package `lex` (file `lex/lex.go`) is a small scanning engine: a cursor
over an immutable input string, a pull loop driving consumer supplied state
functions, and a bounded queue of emitted tokens.

Embedding conventions.

* A Go `string` is a sequence of bytes: `List Byte` with `Byte = Fin 256`.
* Go `int` and `rune` values are modelled by `Int`.  The only arithmetic the
  package performs on them is `pos + width`, `pos - width` and
  `pos + len(sequence)`, whose operands are bounded by the length of a string
  held in memory, so 64-bit wrap-around cannot occur.
* An operation that can fail at run time returns `Except Fault _`: a slice
  expression out of range panics, a send on a full channel never completes.
  Loops carry an explicit iteration budget and report `Fault.fuel` when it is
  exhausted; the theorems show that a budget of `len(input) - pos + 1`
  iterations always suffices.
* `*Lexer` methods become functions from a `Lexer` value to the updated value.
* The recursive type `StateFn func(*Lexer) StateFn` is defunctionalised: a
  grammar is a type `σ` of state names together with one step function
  interpreting each name; `nil` is `none`.
-/

namespace Lex

/-! ## Go strings and the standard library functions used by `lex.go` -/

/-- One byte of a Go string. -/
abbrev Byte := Fin 256

/-- Go conversion `byte(n)`: truncation to eight bits. -/
def byte (n : Nat) : Byte := ⟨n % 256, Nat.mod_lt n (by decide)⟩

/-- Constant `utf8.RuneError`, the replacement code point U+FFFD. -/
def RuneError : Int := 0xFFFD

/-- Constant `utf8.RuneSelf`: code points below it are single bytes. -/
def RuneSelf : Int := 0x80

/-- Constant `utf8.MaxRune`. -/
def MaxRune : Int := 0x10FFFF

/-- Table `first` of package `unicode/utf8`: information about the first byte
of an encoding.  `0xF0` is ASCII (`as`), `0xF1` is invalid (`xx`); otherwise
the low three bits give the size and the high four bits the index into
`acceptRanges`. -/
def first (s0 : Nat) : Nat :=
  if s0 < 0x80 then 0xF0
  else if s0 < 0xC2 then 0xF1
  else if s0 < 0xE0 then 0x02
  else if s0 = 0xE0 then 0x13
  else if s0 < 0xED then 0x03
  else if s0 = 0xED then 0x23
  else if s0 < 0xF0 then 0x03
  else if s0 = 0xF0 then 0x34
  else if s0 < 0xF4 then 0x04
  else if s0 = 0xF4 then 0x44
  else 0xF1

/-- Table `acceptRanges` of package `unicode/utf8`: the admissible range of
the second byte, as a pair `(lo, hi)`.  The Go array has sixteen entries, the
last eleven being zero. -/
def acceptRanges (i : Nat) : Nat × Nat :=
  match i with
  | 0 => (0x80, 0xBF)
  | 1 => (0xA0, 0xBF)
  | 2 => (0x80, 0x9F)
  | 3 => (0x90, 0xBF)
  | 4 => (0x80, 0x8F)
  | _ => (0, 0)

/-- Function `utf8.DecodeRuneInString` of the Go standard library: the first
code point of `s` and its width in bytes.  The empty string gives
`(RuneError, 0)`, an invalid encoding `(RuneError, 1)`.  The masks
`s0 & 0x1F`, `& 0x0F`, `& 0x07`, `& 0x3F` are written as remainders and the
disjoint `<<`/`|` combinations as products and sums. -/
def DecodeRuneInString (s : List Byte) : Int × Nat :=
  let n := s.length
  if n < 1 then (RuneError, 0) else
  let s0 := (s.getD 0 0).val
  let x := first s0
  if x ≥ 0xF0 then
    (if x % 2 = 1 then RuneError else (s0 : Int), 1)
  else
  let sz := x % 8
  let accept := acceptRanges (x / 16)
  if n < sz then (RuneError, 1) else
  let s1 := (s.getD 1 0).val
  if s1 < accept.1 ∨ accept.2 < s1 then (RuneError, 1) else
  if sz ≤ 2 then (((s0 % 32) * 64 + s1 % 64 : Nat), 2) else
  let s2 := (s.getD 2 0).val
  if s2 < 0x80 ∨ 0xBF < s2 then (RuneError, 1) else
  if sz ≤ 3 then (((s0 % 16) * 4096 + (s1 % 64) * 64 + s2 % 64 : Nat), 3) else
  let s3 := (s.getD 3 0).val
  if s3 < 0x80 ∨ 0xBF < s3 then (RuneError, 1) else
  (((s0 % 8) * 262144 + (s1 % 64) * 4096 + (s2 % 64) * 64 + s3 % 64 : Nat), 4)

/-- Function `utf8.ValidRune`: in range and not a surrogate half. -/
def ValidRune (r : Int) : Bool :=
  (0 ≤ r && r < 0xD800) || (0xDFFF < r && r ≤ MaxRune)

/-- Go conversion `string(r)` (function `utf8.EncodeRune`): the UTF-8 encoding
of `r`; a rune out of range or a surrogate half is encoded as U+FFFD.  The
switch is on `uint32(r)`. -/
def EncodeRune (r : Int) : List Byte :=
  let i := (r % 4294967296).toNat
  if i ≤ 0x7F then [byte i]
  else if i ≤ 0x7FF then [byte (0xC0 + i / 64), byte (0x80 + i % 64)]
  else if i > 0x10FFFF ∨ (0xD800 ≤ i ∧ i ≤ 0xDFFF) then [0xEF, 0xBF, 0xBD]
  else if i ≤ 0xFFFF then
    [byte (0xE0 + i / 4096), byte (0x80 + i / 64 % 64), byte (0x80 + i % 64)]
  else
    [byte (0xF0 + i / 262144), byte (0x80 + i / 4096 % 64),
     byte (0x80 + i / 64 % 64), byte (0x80 + i % 64)]

/-- The bytes of a Go string literal: source text is UTF-8 encoded. -/
def str (s : String) : List Byte :=
  (s.toList.map (fun c => EncodeRune (c.toNat : Int))).flatten

/-- Scan for a byte, counting the offset from `i`. -/
def indexByteFrom (c : Byte) : List Byte → Nat → Int
  | [], _ => -1
  | b :: t, i => if b = c then (i : Int) else indexByteFrom c t (i + 1)

/-- Function `strings.IndexByte`: offset of the first `c` in `s`, or `-1`. -/
def IndexByte (s : List Byte) (c : Byte) : Int := indexByteFrom c s 0

/-- Scan for a substring, counting the offset from `i`. -/
def indexFrom (substr : List Byte) : List Byte → Nat → Int
  | [], i => if substr = [] then (i : Int) else -1
  | b :: t, i =>
    if substr.isPrefixOf (b :: t) then (i : Int) else indexFrom substr t (i + 1)

/-- Function `strings.Index`: offset of the first occurrence of `substr` in
`s`, or `-1`. -/
def Index (s substr : List Byte) : Int := indexFrom substr s 0

/-- The loop `for i, r := range s { if r == RuneError { return i } }` followed
by `return -1`, started at offset `i`.  The budget counts the iterations; each
consumes at least one byte, so `len(s)` of them are enough. -/
def indexRuneErrorFrom : Nat → List Byte → Nat → Int
  | 0, _, _ => -1
  | _ + 1, [], _ => -1
  | n + 1, b :: t, i =>
    let d := DecodeRuneInString (b :: t)
    if d.1 = RuneError then (i : Int)
    else indexRuneErrorFrom n ((b :: t).drop d.2) (i + d.2)

/-- Function `strings.IndexRune`: offset of the first occurrence of the code
point `r` in `s`, or `-1`.  An ASCII rune is searched as a byte, `RuneError`
by decoding `s`, an invalid rune is never found, and any other rune is
searched by its encoding. -/
def IndexRune (s : List Byte) (r : Int) : Int :=
  if 0 ≤ r ∧ r < RuneSelf then IndexByte s (byte r.toNat)
  else if r = RuneError then indexRuneErrorFrom s.length s 0
  else if ¬ ValidRune r then -1
  else Index s (EncodeRune r)

/-- The string slice expression `s[lo:hi]`: it panics unless
`0 ≤ lo ≤ hi ≤ len(s)`. -/
def slice (s : List Byte) (lo hi : Int) : Option (List Byte) :=
  if 0 ≤ lo ∧ lo ≤ hi ∧ hi ≤ (s.length : Int) then
    some ((s.drop lo.toNat).take (hi - lo).toNat)
  else none

/-! ## The package `lex` -/

/-- Ways in which an operation fails to return. -/
inductive Fault where
  /-- Run-time panic: slice bounds out of range. -/
  | sliceBounds
  /-- A send on the full token channel, which never completes. -/
  | blocked
  /-- The iteration budget of the model was exhausted. -/
  | fuel
  deriving DecidableEq, Repr

/-- Results of fallible operations can be compared. -/
instance instDecidableEqExcept {ε α : Type} [DecidableEq ε] [DecidableEq α] :
    DecidableEq (Except ε α)
  | .ok a, .ok b =>
    if h : a = b then isTrue (congrArg Except.ok h)
    else isFalse (fun h1 => h (Except.ok.inj h1))
  | .error a, .error b =>
    if h : a = b then isTrue (congrArg Except.error h)
    else isFalse (fun h1 => h (Except.error.inj h1))
  | .ok _, .error _ => isFalse (fun h1 => Except.noConfusion h1)
  | .error _, .ok _ => isFalse (fun h1 => Except.noConfusion h1)

/-- Type `TokenType`, a Go string. -/
abbrev TokenType := List Byte

/-- Constant `ILLEGAL`. -/
def ILLEGAL : TokenType := str "ILLEGAL"

/-- Constant `EOF`. -/
def EOF : TokenType := str "EOF"

/-- Struct `Token`; the field `Type` is named `Typ`. -/
structure Token where
  Typ : TokenType
  Literal : List Byte
  deriving DecidableEq, Repr

/-- Struct `Lexer`.  `state` holds the name of the current state function
(`none` for `nil`); `tokens` is the content of the buffered channel, oldest
token first. -/
structure Lexer (σ : Type) where
  state : Option σ
  input : List Byte
  start : Int
  pos : Int
  width : Int
  tokens : List Token
  deriving DecidableEq, Repr

/-- Capacity of the channel made by `New`: `make(chan Token, 2)`. -/
def tokensCap : Nat := 2

/-- Function `New`. -/
def New {σ : Type} (input : List Byte) (startState : Option σ) : Lexer σ :=
  { state := startState, input := input, start := 0, pos := 0, width := 0, tokens := [] }

variable {σ : Type}

/-- Method `Lexer.Next`; `-1` is the end-of-input result.  The slice
`l.input[l.pos:]` panics for a negative `pos`. -/
def Next (l : Lexer σ) : Except Fault (Int × Lexer σ) :=
  if l.pos ≥ (l.input.length : Int) then
    .ok (-1, { l with width := 0 })
  else if l.pos < 0 then .error .sliceBounds
  else
    let d := DecodeRuneInString (l.input.drop l.pos.toNat)
    .ok (d.1, { l with width := (d.2 : Int), pos := l.pos + (d.2 : Int) })

/-- Method `Lexer.Ignore`. -/
def Ignore (l : Lexer σ) : Lexer σ := { l with start := l.pos }

/-- Method `Lexer.Backup`. -/
def Backup (l : Lexer σ) : Lexer σ := { l with pos := l.pos - l.width }

/-- Method `Lexer.Peek`. -/
def Peek (l : Lexer σ) : Except Fault (Int × Lexer σ) :=
  match Next l with
  | .error e => .error e
  | .ok (r, l1) => .ok (r, Backup l1)

/-- Function `IsEndOfLine`: `r == '\n' || r == '\r'`. -/
def IsEndOfLine (r : Int) : Bool := r = 10 || r = 13

/-- Function `IsSpace`, that is `unicode.IsSpace` of the Go standard library.
Within Latin-1 (tested on `uint32(r)`) the white space characters are
`\t \n \v \f \r`, the space, U+0085 and U+00A0; beyond it the `White_Space`
range table lists U+1680, U+2000 to U+200A, U+2028, U+2029, U+202F, U+205F
and U+3000. -/
def IsSpace (r : Int) : Bool :=
  let u := r % 4294967296
  if u ≤ 0xFF then
    r = 9 || r = 10 || r = 11 || r = 12 || r = 13 || r = 32 || r = 0x85 || r = 0xA0
  else if u ≤ 0x3000 then
    u = 0x1680 || (0x2000 ≤ u && u ≤ 0x200A) || u = 0x2028 || u = 0x2029 ||
      u = 0x202F || u = 0x205F || u = 0x3000
  else false

/-- Function `IsDigit`: `'0' <= r && r <= '9'`. -/
def IsDigit (r : Int) : Bool := 48 ≤ r && r ≤ 57

/-- Function `IsAlpha`:
`'a' <= r && r <= 'z' || 'A' <= r && r <= 'Z' || r == '_'`. -/
def IsAlpha (r : Int) : Bool :=
  (97 ≤ r && r ≤ 122) || (65 ≤ r && r ≤ 90) || r = 95

/-- The loop `for IsSpace(l.Next()) { l.Ignore() }` of `IgnoreWhitespace`,
with a budget of calls to `Next`. -/
def ignoreWhile : Nat → Lexer σ → Except Fault (Lexer σ)
  | 0, _ => .error .fuel
  | n + 1, l =>
    match Next l with
    | .error e => .error e
    | .ok (r, l1) => if IsSpace r then ignoreWhile n (Ignore l1) else .ok l1

/-- Method `Lexer.IgnoreWhitespace`. -/
def IgnoreWhitespace (fuel : Nat) (l : Lexer σ) : Except Fault (Lexer σ) :=
  match ignoreWhile fuel l with
  | .error e => .error e
  | .ok l1 => .ok (Backup l1)

/-- The loop condition of `Accept` and `AcceptRun`:
`strings.IndexRune(valid, r) >= 0`. -/
def inSet (valid : List Byte) (r : Int) : Bool := decide (IndexRune valid r ≥ 0)

/-- Method `Lexer.Accept`. -/
def Accept (l : Lexer σ) (valid : List Byte) : Except Fault (Bool × Lexer σ) :=
  match Next l with
  | .error e => .error e
  | .ok (r, l1) => if inSet valid r then .ok (true, l1) else .ok (false, Backup l1)

/-- The loop `for p(l.Next()) {}` shared by `AcceptAlpha`, `AcceptDigits` and
`AcceptRun`, with a budget of calls to `Next`. -/
def nextWhile (p : Int → Bool) : Nat → Lexer σ → Except Fault (Lexer σ)
  | 0, _ => .error .fuel
  | n + 1, l =>
    match Next l with
    | .error e => .error e
    | .ok (r, l1) => if p r then nextWhile p n l1 else .ok l1

/-- Method `Lexer.AcceptAlpha`. -/
def AcceptAlpha (fuel : Nat) (l : Lexer σ) : Except Fault (Lexer σ) :=
  match nextWhile IsAlpha fuel l with
  | .error e => .error e
  | .ok l1 => .ok (Backup l1)

/-- Method `Lexer.AcceptDigits`. -/
def AcceptDigits (fuel : Nat) (l : Lexer σ) : Except Fault (Lexer σ) :=
  match nextWhile IsDigit fuel l with
  | .error e => .error e
  | .ok l1 => .ok (Backup l1)

/-- Method `Lexer.AcceptRun`. -/
def AcceptRun (fuel : Nat) (l : Lexer σ) (valid : List Byte) : Except Fault (Lexer σ) :=
  match nextWhile (inSet valid) fuel l with
  | .error e => .error e
  | .ok l1 => .ok (Backup l1)

/-- Method `Lexer.AcceptSequence`.  The slice expression
`l.input[l.pos:l.pos+len(sequence)]` is evaluated without a preceding bounds
test. -/
def AcceptSequence (l : Lexer σ) (sequence : List Byte) : Except Fault (Bool × Lexer σ) :=
  match slice l.input l.pos (l.pos + (sequence.length : Int)) with
  | none => .error .sliceBounds
  | some s =>
    if s = sequence then .ok (true, { l with pos := l.pos + (sequence.length : Int) })
    else .ok (false, l)

/-- Method `Lexer.CurrentInput`: the slice `l.input[l.start:l.pos]`. -/
def CurrentInput (l : Lexer σ) : Except Fault (List Byte) :=
  match slice l.input l.start l.pos with
  | none => .error .sliceBounds
  | some s => .ok s

/-- The send statement `l.tokens <- t` on the channel of capacity 2.  With a
single thread of control a send on a full channel never completes. -/
def send (l : Lexer σ) (t : Token) : Except Fault (Lexer σ) :=
  if l.tokens.length < tokensCap then .ok { l with tokens := l.tokens ++ [t] }
  else .error .blocked

/-- Method `Lexer.Errorf`; `msg` is the value of `fmt.Sprintf(format, args...)`.
The result is the returned state function, always `nil`. -/
def Errorf (l : Lexer σ) (msg : List Byte) : Except Fault (Option σ × Lexer σ) :=
  match send l { Typ := ILLEGAL, Literal := msg } with
  | .error e => .error e
  | .ok l1 => .ok (none, l1)

/-- Method `Lexer.Emit`. -/
def Emit (l : Lexer σ) (tokenType : TokenType) : Except Fault (Lexer σ) :=
  match CurrentInput l with
  | .error e => .error e
  | .ok lit =>
    match send l { Typ := tokenType, Literal := lit } with
    | .error e => .error e
    | .ok l1 => .ok { l1 with start := l1.pos }

/-- Type `StateFn`: a state function works on the lexer and returns the next
state function, here its name (`none` for `nil`). -/
abbrev StateFn (σ : Type) := Lexer σ → Except Fault (Option σ × Lexer σ)

/-- Method `Lexer.NextToken`, for a grammar `g` interpreting the state names.
The budget bounds the number of state functions invoked by this call. -/
def NextToken (g : σ → StateFn σ) : Nat → Lexer σ → Except Fault (Token × Lexer σ)
  | fuel, l =>
    match l.tokens with
    | t :: ts => .ok (t, { l with tokens := ts })
    | [] =>
      match l.state with
      | none => .ok ({ Typ := EOF, Literal := [] }, l)
      | some s =>
        match fuel with
        | 0 => .error .fuel
        | n + 1 =>
          match g s l with
          | .error e => .error e
          | .ok (s1, l1) => NextToken g n { l1 with state := s1 }

/-- The results of `k` successive calls of `NextToken`, in order, and the
lexer left by the last one. -/
def NextTokens (g : σ → StateFn σ) (fuel : Nat) : Nat → Lexer σ → Except Fault (List Token × Lexer σ)
  | 0, l => .ok ([], l)
  | k + 1, l =>
    match NextToken g fuel l with
    | .error e => .error e
    | .ok (t, l1) =>
      match NextTokens g fuel k l1 with
      | .error e => .error e
      | .ok (ts, l2) => .ok (t :: ts, l2)

/-! ## The grammar of `TestLexing` (file `lex/lex_test.go`) -/

/-- Names of the four state functions of `TestLexing`. -/
inductive TestState where
  | lex
  | lexWord
  | lexNumber
  | lexPunctuation
  deriving DecidableEq, Repr

/-- Token type `word`. -/
def word : TokenType := str "WORD"

/-- Token type `number`. -/
def number : TokenType := str "NUMBER"

/-- Token type `punctuation`. -/
def punctuation : TokenType := str "PUNCTUATION"

/-- The closures `lex`, `lexWord`, `lexNumber` and `lexPunctuation` of
`TestLexing`; `fuel` is the budget handed to the cursor loops. -/
def testGrammar (fuel : Nat) : TestState → StateFn TestState
  | .lex, l => do
    let (r, l) ← Peek l
    if r = -1 then
      return (none, l)
    let l ← IgnoreWhitespace fuel l
    let (r, l) ← Peek l
    if IsAlpha r then
      return (some .lexWord, l)
    let (r, l) ← Peek l
    if IsDigit r then
      return (some .lexNumber, l)
    return (some .lexPunctuation, l)
  | .lexWord, l => do
    let l ← AcceptAlpha fuel l
    let l ← Emit l word
    return (some .lex, l)
  | .lexNumber, l => do
    let l ← AcceptDigits fuel l
    let l ← Emit l number
    return (some .lex, l)
  | .lexPunctuation, l => do
    let (ok, l) ← Accept l (str ":")
    if !ok then
      let (_, l) ← Next l
      let (_, l) ← Errorf l (str "bad punctuation")
      return (some .lex, l)
    else
      let l ← Emit l punctuation
      return (some .lex, l)

/-- The input of `TestLexing`. -/
def testInput : List Byte := str "this is a string of words and numbers: 1234567890abc."

/-- The `expected` tokens of `TestLexing`. -/
def testExpected : List Token :=
  [⟨word, str "this"⟩, ⟨word, str "is"⟩, ⟨word, str "a"⟩, ⟨word, str "string"⟩,
   ⟨word, str "of"⟩, ⟨word, str "words"⟩, ⟨word, str "and"⟩, ⟨word, str "numbers"⟩,
   ⟨punctuation, str ":"⟩, ⟨number, str "1234567890"⟩, ⟨word, str "abc"⟩,
   ⟨ILLEGAL, str "bad punctuation"⟩]

/-- The lexer after the twelve expected tokens and one `EOF` have been
returned: the final `.` is consumed and never emitted. -/
def testFinal : Lexer TestState :=
  { state := none, input := testInput, start := 52, pos := 53, width := 0, tokens := [] }

/-! ## Reference notions used in the statements -/

/-- The unread input `l.input[l.pos:]`, for a cursor within bounds. -/
def rest (l : Lexer σ) : List Byte := l.input.drop l.pos.toNat

/-- The readings of `s` met by repeated decoding (a `range` loop), each a code
point with its width in bytes; the budget counts the readings. -/
def runesFrom : Nat → List Byte → List (Int × Nat)
  | 0, _ => []
  | _ + 1, [] => []
  | n + 1, b :: t =>
    let d := DecodeRuneInString (b :: t)
    d :: runesFrom n ((b :: t).drop d.2)

/-- The readings of `s`: its code points, each with its width in bytes, in
order. -/
def runes (s : List Byte) : List (Int × Nat) := runesFrom s.length s

/-- Byte length of the longest prefix of the code points of `s` that all
satisfy `p`. -/
def runWidth (p : Int → Bool) (s : List Byte) : Nat :=
  (((runes s).takeWhile (fun d => p d.1)).map (fun d => d.2)).sum

/-- The code points of `s`, as a `range` loop over `s` yields them. -/
def codePoints (s : List Byte) : List Int := (runes s).map (fun d => d.1)

/-- Whether `r` is one of the code points of the set string `valid`. -/
def member (valid : List Byte) (r : Int) : Bool := decide (r ∈ codePoints valid)

/-- The ways in which `DecodeRuneInString` reads the front of a string: an
ASCII byte, an invalid start, or a well formed sequence of 2, 3 or 4 bytes. -/
inductive DecodeCase : List Byte → Int → Nat → Prop where
  | ascii (b0 : Byte) (t : List Byte) : b0.val < 0x80 →
      DecodeCase (b0 :: t) (b0.val : Int) 1
  | invalid (b0 : Byte) (t : List Byte) : 0x80 ≤ b0.val →
      DecodeCase (b0 :: t) RuneError 1
  | two (b0 b1 : Byte) (t : List Byte) : 0xC2 ≤ b0.val → b0.val ≤ 0xDF →
      0x80 ≤ b1.val → b1.val ≤ 0xBF →
      DecodeCase (b0 :: b1 :: t) ((b0.val % 32 * 64 + b1.val % 64 : Nat) : Int) 2
  | three (b0 b1 b2 : Byte) (t : List Byte) : 0xE0 ≤ b0.val → b0.val ≤ 0xEF →
      0x80 ≤ b1.val → b1.val ≤ 0xBF → (b0.val = 0xE0 → 0xA0 ≤ b1.val) →
      (b0.val = 0xED → b1.val ≤ 0x9F) → 0x80 ≤ b2.val → b2.val ≤ 0xBF →
      DecodeCase (b0 :: b1 :: b2 :: t)
        ((b0.val % 16 * 4096 + b1.val % 64 * 64 + b2.val % 64 : Nat) : Int) 3
  | four (b0 b1 b2 b3 : Byte) (t : List Byte) : 0xF0 ≤ b0.val → b0.val ≤ 0xF4 →
      0x80 ≤ b1.val → b1.val ≤ 0xBF → (b0.val = 0xF0 → 0x90 ≤ b1.val) →
      (b0.val = 0xF4 → b1.val ≤ 0x8F) → 0x80 ≤ b2.val → b2.val ≤ 0xBF →
      0x80 ≤ b3.val → b3.val ≤ 0xBF →
      DecodeCase (b0 :: b1 :: b2 :: b3 :: t)
        ((b0.val % 8 * 262144 + b1.val % 64 * 4096 + b2.val % 64 * 64 + b3.val % 64 : Nat) :
          Int) 4

/-! ## Notions for the invariant, the set strings and the queue -/

/-- The set string `"0123456789"`, which `lexNumber` of package `lexer` hands to
`AcceptRun`. -/
def digitSet : List Byte := str "0123456789"

/-- The string of the 52 ASCII letters and the underscore. -/
def alphaSet : List Byte := str "abcdefghijklmnopqrstuvwxyzABCDEFGHIJKLMNOPQRSTUVWXYZ_"

/-- The cursor invariant `0 ≤ start ≤ pos ≤ len(input)`. -/
def Inv (l : Lexer σ) : Prop :=
  0 ≤ l.start ∧ l.start ≤ l.pos ∧ l.pos ≤ (l.input.length : Int)

/-- The lexers reached from `New` by the public cursor operations when the
contract of `Backup` is respected.  The flag tells whether `Backup` may come
next: it is set by `Next` and by an `Accept` that returned `true` (a `Next`
not undone), kept by `Errorf` and `AcceptSequence`, which touch neither
`start` nor `width`, and cleared by every other operation, each of which ends
with a `Backup` of its own or moves `start`. -/
inductive Reach : Bool → Lexer σ → Prop where
  | new (input : List Byte) (s : Option σ) : Reach false (New input s)
  | next {b : Bool} {l l1 : Lexer σ} {r : Int} :
      Reach b l → Next l = .ok (r, l1) → Reach true l1
  | backup {l : Lexer σ} : Reach true l → Reach false (Backup l)
  | peek {b : Bool} {l l1 : Lexer σ} {r : Int} :
      Reach b l → Peek l = .ok (r, l1) → Reach false l1
  | ignore {b : Bool} {l : Lexer σ} : Reach b l → Reach false (Ignore l)
  | ignoreWhitespace {b : Bool} {l l1 : Lexer σ} {fuel : Nat} :
      Reach b l → IgnoreWhitespace fuel l = .ok l1 → Reach false l1
  | accept {b ok : Bool} {l l1 : Lexer σ} {valid : List Byte} :
      Reach b l → Accept l valid = .ok (ok, l1) → Reach ok l1
  | acceptRun {b : Bool} {l l1 : Lexer σ} {fuel : Nat} {valid : List Byte} :
      Reach b l → AcceptRun fuel l valid = .ok l1 → Reach false l1
  | acceptAlpha {b : Bool} {l l1 : Lexer σ} {fuel : Nat} :
      Reach b l → AcceptAlpha fuel l = .ok l1 → Reach false l1
  | acceptDigits {b : Bool} {l l1 : Lexer σ} {fuel : Nat} :
      Reach b l → AcceptDigits fuel l = .ok l1 → Reach false l1
  | acceptSequence {b ok : Bool} {l l1 : Lexer σ} {sequence : List Byte} :
      Reach b l → l.pos + (sequence.length : Int) ≤ (l.input.length : Int) →
      AcceptSequence l sequence = .ok (ok, l1) → Reach b l1
  | emit {b : Bool} {l l1 : Lexer σ} {tokenType : TokenType} :
      Reach b l → Emit l tokenType = .ok l1 → Reach false l1
  | errorf {b : Bool} {l l1 : Lexer σ} {msg : List Byte} {s : Option σ} :
      Reach b l → Errorf l msg = .ok (s, l1) → Reach b l1

/-- Outcomes of a piece of a state function run from the lexer `l`, with a
bound `k` on the number of sends it attempts on the token channel (`Emit` and
`Errorf` each attempt one).  Operations other than sends leave the queue as it
is, or stop the run with a fault of their own; a send either succeeds or
blocks, as the channel decides. -/
inductive Emits : Nat → Lexer σ → Except Fault (Lexer σ) → Prop where
  | done (k : Nat) (l : Lexer σ) : Emits k l (.ok l)
  | fault (k : Nat) (l : Lexer σ) (e : Fault) : e ≠ Fault.blocked → Emits k l (.error e)
  | quiet {k : Nat} {l l1 : Lexer σ} {r : Except Fault (Lexer σ)} :
      l1.tokens = l.tokens → Emits k l1 r → Emits k l r
  | sent {k : Nat} {l l1 : Lexer σ} {r : Except Fault (Lexer σ)} (t : Token) :
      send l t = .ok l1 → Emits k l1 r → Emits (k + 1) l r
  | stuck {k : Nat} {l : Lexer σ} {e : Fault} (t : Token) :
      send l t = .error e → Emits (k + 1) l (.error e)

/-- Every state function of the grammar `g` attempts at most `k` sends in one
invocation. -/
def EmitsAtMost (k : Nat) (g : σ → StateFn σ) : Prop :=
  ∀ (s : σ) (l : Lexer σ),
    Emits k l (match g s l with
      | .error e => .error e
      | .ok (_, l1) => .ok l1)

/-! ## The decoder and the code points of a string -/

theorem first_as (s0 : Nat) (h : s0 < 0x80) : first s0 = 0xF0 := by
  unfold first
  rw [if_pos h]

theorem first_xx (s0 : Nat) (h : 0x80 ≤ s0) (h1 : s0 < 0xC2 ∨ 0xF5 ≤ s0) : first s0 = 0xF1 := by
  unfold first
  rcases h1 with h1 | h1
  · rw [if_neg (by omega), if_pos h1]
  · iterate 10 rw [if_neg (by omega)]

theorem first_s1 (s0 : Nat) (h : 0xC2 ≤ s0) (h1 : s0 ≤ 0xDF) : first s0 = 0x02 := by
  unfold first
  rw [if_neg (by omega), if_neg (by omega), if_pos (by omega)]

theorem first_s2 : first 0xE0 = 0x13 := by decide

theorem first_s3 (s0 : Nat) (h : 0xE1 ≤ s0) (h1 : s0 ≤ 0xEF) (h2 : s0 ≠ 0xED) :
    first s0 = 0x03 := by
  unfold first
  by_cases h3 : s0 < 0xED
  · iterate 4 rw [if_neg (by omega)]
    rw [if_pos h3]
  · iterate 4 rw [if_neg (by omega)]
    rw [if_neg h3, if_neg h2, if_pos (by omega)]

theorem first_s4 : first 0xED = 0x23 := by decide

theorem first_s5 : first 0xF0 = 0x34 := by decide

theorem first_s6 (s0 : Nat) (h : 0xF1 ≤ s0) (h1 : s0 ≤ 0xF3) : first s0 = 0x04 := by
  unfold first
  iterate 8 rw [if_neg (by omega)]
  rw [if_pos (by omega)]

theorem first_s7 : first 0xF4 = 0x44 := by decide

theorem decode_cons (b0 : Byte) (t : List Byte) :
    DecodeRuneInString (b0 :: t) =
      if first b0.val ≥ 0xF0 then
        (if first b0.val % 2 = 1 then RuneError else (b0.val : Int), 1)
      else if t.length + 1 < first b0.val % 8 then (RuneError, 1)
      else if (t.getD 0 0).val < (acceptRanges (first b0.val / 16)).1 ∨
          (acceptRanges (first b0.val / 16)).2 < (t.getD 0 0).val then (RuneError, 1)
      else if first b0.val % 8 ≤ 2 then
        (((b0.val % 32 * 64 + (t.getD 0 0).val % 64 : Nat) : Int), 2)
      else if (t.getD 1 0).val < 0x80 ∨ 0xBF < (t.getD 1 0).val then (RuneError, 1)
      else if first b0.val % 8 ≤ 3 then
        (((b0.val % 16 * 4096 + (t.getD 0 0).val % 64 * 64 + (t.getD 1 0).val % 64 : Nat) :
          Int), 3)
      else if (t.getD 2 0).val < 0x80 ∨ 0xBF < (t.getD 2 0).val then (RuneError, 1)
      else
        (((b0.val % 8 * 262144 + (t.getD 0 0).val % 64 * 4096 +
          (t.getD 1 0).val % 64 * 64 + (t.getD 2 0).val % 64 : Nat) : Int), 4) := by
  unfold DecodeRuneInString
  simp only [List.length_cons, List.getD_cons_zero, List.getD_cons_succ]
  rw [if_neg (by omega)]

theorem decode_ascii (b0 : Byte) (t : List Byte) (h : b0.val < 0x80) :
    DecodeRuneInString (b0 :: t) = ((b0.val : Int), 1) := by
  rw [decode_cons]
  simp [first_as b0.val h]

theorem decode_two (b0 b1 : Byte) (t : List Byte) (h0 : 0xC2 ≤ b0.val) (h1 : b0.val ≤ 0xDF)
    (h2 : 0x80 ≤ b1.val) (h3 : b1.val ≤ 0xBF) :
    DecodeRuneInString (b0 :: b1 :: t) =
      (((b0.val % 32 * 64 + b1.val % 64 : Nat) : Int), 2) := by
  rw [decode_cons]
  simp only [first_s1 b0.val h0 h1, List.getD_cons_zero, List.length_cons, acceptRanges]
  iterate 3 rw [if_neg (by omega)]
  rw [if_pos (by omega)]

theorem decode_xx (b0 : Byte) (t : List Byte) (h : 0x80 ≤ b0.val)
    (h1 : b0.val < 0xC2 ∨ 0xF5 ≤ b0.val) : DecodeRuneInString (b0 :: t) = (RuneError, 1) := by
  rw [decode_cons]
  simp [first_xx b0.val h h1]

theorem decode_three_aux (b0 b1 b2 : Byte) (t : List Byte) (x lo hi : Nat)
    (hx : first b0.val = x) (hlt : x < 0xF0) (hsz : x % 8 = 3)
    (hacc : acceptRanges (x / 16) = (lo, hi)) (h2 : lo ≤ b1.val) (h3 : b1.val ≤ hi)
    (h6 : 0x80 ≤ b2.val) (h7 : b2.val ≤ 0xBF) :
    DecodeRuneInString (b0 :: b1 :: b2 :: t) =
      (((b0.val % 16 * 4096 + b1.val % 64 * 64 + b2.val % 64 : Nat) : Int), 3) := by
  rw [decode_cons]
  simp only [hx, hacc, hsz, List.getD_cons_zero, List.getD_cons_succ, List.length_cons]
  iterate 5 rw [if_neg (by omega)]
  rw [if_pos (by omega)]

theorem decode_three (b0 b1 b2 : Byte) (t : List Byte) (h0 : 0xE0 ≤ b0.val)
    (h1 : b0.val ≤ 0xEF) (h2 : 0x80 ≤ b1.val) (h3 : b1.val ≤ 0xBF)
    (h4 : b0.val = 0xE0 → 0xA0 ≤ b1.val) (h5 : b0.val = 0xED → b1.val ≤ 0x9F)
    (h6 : 0x80 ≤ b2.val) (h7 : b2.val ≤ 0xBF) :
    DecodeRuneInString (b0 :: b1 :: b2 :: t) =
      (((b0.val % 16 * 4096 + b1.val % 64 * 64 + b2.val % 64 : Nat) : Int), 3) := by
  by_cases ha : b0.val = 0xE0
  · exact decode_three_aux b0 b1 b2 t 0x13 0xA0 0xBF (by rw [ha]; exact first_s2)
      (by decide) (by decide) (by decide) (h4 ha) h3 h6 h7
  · by_cases hb : b0.val = 0xED
    · exact decode_three_aux b0 b1 b2 t 0x23 0x80 0x9F (by rw [hb]; exact first_s4)
        (by decide) (by decide) (by decide) h2 (h5 hb) h6 h7
    · exact decode_three_aux b0 b1 b2 t 0x03 0x80 0xBF (first_s3 _ (by omega) h1 hb)
        (by decide) (by decide) (by decide) h2 h3 h6 h7

theorem decode_four_aux (b0 b1 b2 b3 : Byte) (t : List Byte) (x lo hi : Nat)
    (hx : first b0.val = x) (hlt : x < 0xF0) (hsz : x % 8 = 4)
    (hacc : acceptRanges (x / 16) = (lo, hi)) (h2 : lo ≤ b1.val) (h3 : b1.val ≤ hi)
    (h6 : 0x80 ≤ b2.val) (h7 : b2.val ≤ 0xBF) (h8 : 0x80 ≤ b3.val) (h9 : b3.val ≤ 0xBF) :
    DecodeRuneInString (b0 :: b1 :: b2 :: b3 :: t) =
      (((b0.val % 8 * 262144 + b1.val % 64 * 4096 + b2.val % 64 * 64 + b3.val % 64 : Nat) :
        Int), 4) := by
  rw [decode_cons]
  simp only [hx, hacc, hsz, List.getD_cons_zero, List.getD_cons_succ, List.length_cons]
  iterate 7 rw [if_neg (by omega)]

theorem decode_four (b0 b1 b2 b3 : Byte) (t : List Byte) (h0 : 0xF0 ≤ b0.val)
    (h1 : b0.val ≤ 0xF4) (h2 : 0x80 ≤ b1.val) (h3 : b1.val ≤ 0xBF)
    (h4 : b0.val = 0xF0 → 0x90 ≤ b1.val) (h5 : b0.val = 0xF4 → b1.val ≤ 0x8F)
    (h6 : 0x80 ≤ b2.val) (h7 : b2.val ≤ 0xBF) (h8 : 0x80 ≤ b3.val) (h9 : b3.val ≤ 0xBF) :
    DecodeRuneInString (b0 :: b1 :: b2 :: b3 :: t) =
      (((b0.val % 8 * 262144 + b1.val % 64 * 4096 + b2.val % 64 * 64 + b3.val % 64 : Nat) :
        Int), 4) := by
  by_cases ha : b0.val = 0xF0
  · exact decode_four_aux b0 b1 b2 b3 t 0x34 0x90 0xBF (by rw [ha]; exact first_s5)
      (by decide) (by decide) (by decide) (h4 ha) h3 h6 h7 h8 h9
  · by_cases hb : b0.val = 0xF4
    · exact decode_four_aux b0 b1 b2 b3 t 0x44 0x80 0x8F (by rw [hb]; exact first_s7)
        (by decide) (by decide) (by decide) h2 (h5 hb) h6 h7 h8 h9
    · exact decode_four_aux b0 b1 b2 b3 t 0x04 0x80 0xBF (first_s6 _ (by omega) (by omega))
        (by decide) (by decide) (by decide) h2 h3 h6 h7 h8 h9

/-- Every reading of a multi-byte start either fails with `(RuneError, 1)` or
is one of the well formed sequences. -/
theorem decode_multi (b0 : Byte) (t : List Byte) (x lo hi : Nat) (hx : first b0.val = x)
    (hlt : x < 0xF0) (hsz : 2 ≤ x % 8 ∧ x % 8 ≤ 4) (hacc : acceptRanges (x / 16) = (lo, hi)) :
    DecodeRuneInString (b0 :: t) = (RuneError, 1) ∨
    (x % 8 = 2 ∧ ∃ (b1 : Byte) (t1 : List Byte), t = b1 :: t1 ∧ lo ≤ b1.val ∧ b1.val ≤ hi) ∨
    (x % 8 = 3 ∧ ∃ (b1 b2 : Byte) (t1 : List Byte), t = b1 :: b2 :: t1 ∧
      lo ≤ b1.val ∧ b1.val ≤ hi ∧ 0x80 ≤ b2.val ∧ b2.val ≤ 0xBF) ∨
    (x % 8 = 4 ∧ ∃ (b1 b2 b3 : Byte) (t1 : List Byte), t = b1 :: b2 :: b3 :: t1 ∧
      lo ≤ b1.val ∧ b1.val ≤ hi ∧ 0x80 ≤ b2.val ∧ b2.val ≤ 0xBF ∧
      0x80 ≤ b3.val ∧ b3.val ≤ 0xBF) := by
  rw [decode_cons]
  simp only [hx, hacc]
  rw [if_neg (by omega)]
  by_cases hn : t.length + 1 < x % 8
  · left; rw [if_pos hn]
  rw [if_neg hn]
  cases t with
  | nil => simp only [List.length_nil] at hn; omega
  | cons b1 t =>
    simp only [List.getD_cons_zero, List.getD_cons_succ, List.length_cons] at hn ⊢
    by_cases ha : b1.val < lo ∨ hi < b1.val
    · left; rw [if_pos ha]
    rw [if_neg ha]
    by_cases h2 : x % 8 ≤ 2
    · right; left
      exact ⟨by omega, b1, t, rfl, by omega, by omega⟩
    rw [if_neg h2]
    cases t with
    | nil => simp only [List.length_nil] at hn; omega
    | cons b2 t =>
      simp only [List.getD_cons_zero, List.getD_cons_succ, List.length_cons] at hn ⊢
      by_cases hb : b2.val < 0x80 ∨ 0xBF < b2.val
      · left; rw [if_pos hb]
      rw [if_neg hb]
      by_cases h3 : x % 8 ≤ 3
      · right; right; left
        exact ⟨by omega, b1, b2, t, rfl, by omega, by omega, by omega, by omega⟩
      rw [if_neg h3]
      cases t with
      | nil => simp only [List.length_nil] at hn; omega
      | cons b3 t =>
        simp only [List.getD_cons_zero]
        by_cases hc : b3.val < 0x80 ∨ 0xBF < b3.val
        · left; rw [if_pos hc]
        right; right; right
        exact ⟨by omega, b1, b2, b3, t, rfl, by omega, by omega, by omega, by omega,
          by omega, by omega⟩

theorem decode_cases (b0 : Byte) (t : List Byte) :
    DecodeCase (b0 :: t) (DecodeRuneInString (b0 :: t)).1 (DecodeRuneInString (b0 :: t)).2 := by
  have hb := b0.isLt
  by_cases h80 : b0.val < 0x80
  · rw [decode_ascii b0 t h80]
    exact DecodeCase.ascii b0 t h80
  have hinv : DecodeRuneInString (b0 :: t) = (RuneError, 1) →
      DecodeCase (b0 :: t) (DecodeRuneInString (b0 :: t)).1
        (DecodeRuneInString (b0 :: t)).2 := by
    intro h
    rw [h]
    exact DecodeCase.invalid b0 t (by omega)
  by_cases hxx : b0.val < 0xC2 ∨ 0xF5 ≤ b0.val
  · exact hinv (decode_xx b0 t (by omega) hxx)
  -- the start byte announces a sequence of 2, 3 or 4 bytes
  have key : ∀ (x lo hi : Nat), first b0.val = x → x < 0xF0 → 2 ≤ x % 8 ∧ x % 8 ≤ 4 →
      acceptRanges (x / 16) = (lo, hi) → 0x80 ≤ lo → hi ≤ 0xBF →
      (x % 8 = 2 → 0xC2 ≤ b0.val ∧ b0.val ≤ 0xDF) →
      (x % 8 = 3 → 0xE0 ≤ b0.val ∧ b0.val ≤ 0xEF ∧ (b0.val = 0xE0 → 0xA0 ≤ lo) ∧
        (b0.val = 0xED → hi ≤ 0x9F)) →
      (x % 8 = 4 → 0xF0 ≤ b0.val ∧ b0.val ≤ 0xF4 ∧ (b0.val = 0xF0 → 0x90 ≤ lo) ∧
        (b0.val = 0xF4 → hi ≤ 0x8F)) →
      DecodeCase (b0 :: t) (DecodeRuneInString (b0 :: t)).1
        (DecodeRuneInString (b0 :: t)).2 := by
    intro x lo hi hx hlt hsz hacc hlo hhi k2 k3 k4
    rcases decode_multi b0 t x lo hi hx hlt hsz hacc with h | ⟨h, b1, t1, rfl, h1, h2⟩ |
      ⟨h, b1, b2, t1, rfl, h1, h2, h3, h4⟩ | ⟨h, b1, b2, b3, t1, rfl, h1, h2, h3, h4, h5, h6⟩
    · exact hinv h
    · obtain ⟨ka, kb⟩ := k2 h
      rw [decode_two b0 b1 t1 ka kb (by omega) (by omega)]
      exact DecodeCase.two b0 b1 t1 ka kb (by omega) (by omega)
    · obtain ⟨ka, kb, kc, kd⟩ := k3 h
      rw [decode_three b0 b1 b2 t1 ka kb (by omega) (by omega) (fun e => by have := kc e; omega)
        (fun e => by have := kd e; omega) h3 h4]
      exact DecodeCase.three b0 b1 b2 t1 ka kb (by omega) (by omega)
        (fun e => by have := kc e; omega) (fun e => by have := kd e; omega) h3 h4
    · obtain ⟨ka, kb, kc, kd⟩ := k4 h
      rw [decode_four b0 b1 b2 b3 t1 ka kb (by omega) (by omega)
        (fun e => by have := kc e; omega) (fun e => by have := kd e; omega) h3 h4 h5 h6]
      exact DecodeCase.four b0 b1 b2 b3 t1 ka kb (by omega) (by omega)
        (fun e => by have := kc e; omega) (fun e => by have := kd e; omega) h3 h4 h5 h6
  by_cases c1 : b0.val ≤ 0xDF
  · exact key 0x02 0x80 0xBF (first_s1 _ (by omega) c1) (by decide) (by decide) (by decide)
      (by decide) (by decide) (fun _ => ⟨by omega, c1⟩) (fun h => by omega) (fun h => by omega)
  by_cases c2 : b0.val = 0xE0
  · exact key 0x13 0xA0 0xBF (by rw [c2]; exact first_s2) (by decide) (by decide) (by decide)
      (by decide) (by decide) (fun h => by omega)
      (fun _ => ⟨by omega, by omega, fun _ => by omega, fun _ => by omega⟩) (fun h => by omega)
  by_cases c3 : b0.val = 0xED
  · exact key 0x23 0x80 0x9F (by rw [c3]; exact first_s4) (by decide) (by decide) (by decide)
      (by decide) (by decide) (fun h => by omega)
      (fun _ => ⟨by omega, by omega, fun _ => by omega, fun _ => by omega⟩) (fun h => by omega)
  by_cases c4 : b0.val ≤ 0xEF
  · exact key 0x03 0x80 0xBF (first_s3 _ (by omega) c4 c3) (by decide) (by decide) (by decide)
      (by decide) (by decide) (fun h => by omega)
      (fun _ => ⟨by omega, by omega, fun _ => by omega, fun _ => by omega⟩) (fun h => by omega)
  by_cases c5 : b0.val = 0xF0
  · exact key 0x34 0x90 0xBF (by rw [c5]; exact first_s5) (by decide) (by decide) (by decide)
      (by decide) (by decide) (fun h => by omega) (fun h => by omega)
      (fun _ => ⟨by omega, by omega, fun _ => by omega, fun _ => by omega⟩)
  by_cases c6 : b0.val = 0xF4
  · exact key 0x44 0x80 0x8F (by rw [c6]; exact first_s7) (by decide) (by decide) (by decide)
      (by decide) (by decide) (fun h => by omega) (fun h => by omega)
      (fun _ => ⟨by omega, by omega, fun _ => by omega, fun _ => by omega⟩)
  · exact key 0x04 0x80 0xBF (first_s6 _ (by omega) (by omega)) (by decide) (by decide)
      (by decide) (by decide) (by decide) (fun h => by omega) (fun h => by omega)
      (fun _ => ⟨by omega, by omega, fun _ => by omega, fun _ => by omega⟩)

theorem byte_val (n : Nat) : (byte n).val = n % 256 := rfl

theorem byte_eq (n : Nat) (b : Byte) (h : n % 256 = b.val) : byte n = b :=
  Fin.ext h

theorem EncodeRune_nat (i : Nat) (h : i < 4294967296) :
    EncodeRune (i : Int) =
      if i ≤ 0x7F then [byte i]
      else if i ≤ 0x7FF then [byte (0xC0 + i / 64), byte (0x80 + i % 64)]
      else if i > 0x10FFFF ∨ (0xD800 ≤ i ∧ i ≤ 0xDFFF) then [0xEF, 0xBF, 0xBD]
      else if i ≤ 0xFFFF then
        [byte (0xE0 + i / 4096), byte (0x80 + i / 64 % 64), byte (0x80 + i % 64)]
      else
        [byte (0xF0 + i / 262144), byte (0x80 + i / 4096 % 64),
         byte (0x80 + i / 64 % 64), byte (0x80 + i % 64)] := by
  have : ((i : Int) % 4294967296).toNat = i := by omega
  unfold EncodeRune
  simp only [this]

/-- The code points produced by the decoder are valid runes. -/
theorem DecodeCase.valid {s : List Byte} {r : Int} {w : Nat} (h : DecodeCase s r w) :
    ValidRune r = true := by
  cases h <;> simp only [ValidRune, MaxRune, RuneError, Bool.or_eq_true, Bool.and_eq_true,
    decide_eq_true_eq] <;> omega

/-- A reading of width 1 is an ASCII byte or `RuneError`; wider readings give
runes from `0x80` on. -/
theorem DecodeCase.range {s : List Byte} {r : Int} {w : Nat} (h : DecodeCase s r w) :
    (w = 1 ∧ (r < 0x80 ∨ r = RuneError)) ∨ (2 ≤ w ∧ 0x80 ≤ r) := by
  cases h with
  | ascii b0 t h0 => exact Or.inl ⟨rfl, Or.inl (by omega)⟩
  | invalid b0 t h0 => exact Or.inl ⟨rfl, Or.inr rfl⟩
  | two b0 b1 t h0 h1 h2 h3 => exact Or.inr ⟨by omega, by omega⟩
  | three b0 b1 b2 t h0 h1 h2 h3 h4 h5 h6 h7 => exact Or.inr ⟨by omega, by omega⟩
  | four b0 b1 b2 b3 t h0 h1 h2 h3 h4 h5 h6 h7 h8 h9 => exact Or.inr ⟨by omega, by omega⟩

/-- Re-encoding a multi-byte reading gives back the bytes read. -/
theorem DecodeCase.encode {s : List Byte} {r : Int} {w : Nat} (h : DecodeCase s r w)
    (hw : 2 ≤ w) : EncodeRune r = s.take w := by
  cases h with
  | ascii b0 t h0 => omega
  | invalid b0 t h0 => omega
  | two b0 b1 t h0 h1 h2 h3 =>
    rw [EncodeRune_nat _ (by omega), if_neg (by omega), if_pos (by omega)]
    simp only [List.take_succ_cons, List.take_zero]
    rw [byte_eq _ b0 (by omega), byte_eq _ b1 (by omega)]
  | three b0 b1 b2 t h0 h1 h2 h3 h4 h5 h6 h7 =>
    rw [EncodeRune_nat _ (by omega)]
    iterate 3 rw [if_neg (by omega)]
    rw [if_pos (by omega)]
    simp only [List.take_succ_cons, List.take_zero]
    rw [byte_eq _ b0 (by omega), byte_eq _ b1 (by omega), byte_eq _ b2 (by omega)]
  | four b0 b1 b2 b3 t h0 h1 h2 h3 h4 h5 h6 h7 h8 h9 =>
    rw [EncodeRune_nat _ (by omega)]
    iterate 4 rw [if_neg (by omega)]
    simp only [List.take_succ_cons, List.take_zero]
    rw [byte_eq _ b0 (by omega), byte_eq _ b1 (by omega), byte_eq _ b2 (by omega),
      byte_eq _ b3 (by omega)]

/-- Decoding the encoding of a valid rune from `0x80` on gives the rune back;
the encoding starts with a byte from `0xC2` on and has at least two bytes. -/
theorem decode_encode (r : Int) (hv : ValidRune r = true) (h80 : 0x80 ≤ r) (tl : List Byte) :
    DecodeRuneInString (EncodeRune r ++ tl) = (r, (EncodeRune r).length) ∧
    ∃ (b0 : Byte) (t : List Byte), EncodeRune r = b0 :: t ∧ 0xC2 ≤ b0.val := by
  obtain ⟨i, rfl⟩ := Int.eq_ofNat_of_zero_le (by omega : 0 ≤ r)
  simp only [ValidRune, MaxRune, Bool.or_eq_true, Bool.and_eq_true, decide_eq_true_eq] at hv
  rw [EncodeRune_nat i (by omega), if_neg (by omega)]
  by_cases h2 : i ≤ 0x7FF
  · rw [if_pos h2]
    refine ⟨?_, _, _, rfl, by rw [byte_val]; omega⟩
    simp only [List.cons_append, List.nil_append, List.length_cons, List.length_nil]
    rw [decode_two _ _ _ (by rw [byte_val]; omega) (by rw [byte_val]; omega)
      (by rw [byte_val]; omega) (by rw [byte_val]; omega)]
    refine Prod.ext ?_ rfl
    simp only [byte_val]
    omega
  rw [if_neg h2, if_neg (by omega)]
  by_cases h3 : i ≤ 0xFFFF
  · rw [if_pos h3]
    refine ⟨?_, _, _, rfl, by rw [byte_val]; omega⟩
    simp only [List.cons_append, List.nil_append, List.length_cons, List.length_nil]
    rw [decode_three _ _ _ _ (by rw [byte_val]; omega) (by rw [byte_val]; omega)
      (by rw [byte_val]; omega) (by rw [byte_val]; omega)
      (by simp only [byte_val]; omega) (by simp only [byte_val]; omega)
      (by rw [byte_val]; omega) (by rw [byte_val]; omega)]
    refine Prod.ext ?_ rfl
    simp only [byte_val]
    omega
  · rw [if_neg h3]
    refine ⟨?_, _, _, rfl, by rw [byte_val]; omega⟩
    simp only [List.cons_append, List.nil_append, List.length_cons, List.length_nil]
    rw [decode_four _ _ _ _ _ (by rw [byte_val]; omega) (by rw [byte_val]; omega)
      (by rw [byte_val]; omega) (by rw [byte_val]; omega)
      (by simp only [byte_val]; omega) (by simp only [byte_val]; omega)
      (by rw [byte_val]; omega) (by rw [byte_val]; omega)
      (by rw [byte_val]; omega) (by rw [byte_val]; omega)]
    refine Prod.ext ?_ rfl
    simp only [byte_val]
    omega

theorem DecodeCase.width {s : List Byte} {r : Int} {w : Nat} (h : DecodeCase s r w) :
    1 ≤ w ∧ w ≤ s.length ∧ w ≤ 4 := by
  cases h <;> simp only [List.length_cons] <;> omega

theorem decode_width (s : List Byte) (h : s ≠ []) :
    1 ≤ (DecodeRuneInString s).2 ∧ (DecodeRuneInString s).2 ≤ s.length ∧
      (DecodeRuneInString s).2 ≤ 4 := by
  cases s with
  | nil => exact absurd rfl h
  | cons b0 t => exact (decode_cases b0 t).width

theorem decode_nil : DecodeRuneInString [] = (RuneError, 0) := by
  simp [DecodeRuneInString]

theorem runesFrom_stable : ∀ (n m : Nat) (s : List Byte), s.length ≤ n → s.length ≤ m →
    runesFrom n s = runesFrom m s := by
  intro n
  induction n with
  | zero =>
    intro m s hn _
    have hs : s = [] := List.length_eq_zero.mp (Nat.le_zero.mp hn)
    subst hs
    cases m <;> rfl
  | succ n ih =>
    intro m s hn hm
    cases s with
    | nil => cases m <;> rfl
    | cons b t =>
      cases m with
      | zero => simp at hm
      | succ m =>
        have hw := decode_width (b :: t) (List.cons_ne_nil b t)
        have hd : ((b :: t).drop (DecodeRuneInString (b :: t)).2).length ≤ t.length := by
          rw [List.length_drop]
          simp only [List.length_cons]
          omega
        simp only [List.length_cons] at hn hm
        simp only [runesFrom]
        rw [ih m _ (by omega) (by omega)]

theorem runes_nil : runes [] = [] := rfl

theorem runes_cons (s : List Byte) (h : s ≠ []) :
    runes s = DecodeRuneInString s :: runes (s.drop (DecodeRuneInString s).2) := by
  cases s with
  | nil => exact absurd rfl h
  | cons b t =>
    have hw := decode_width (b :: t) (List.cons_ne_nil b t)
    have hd : ((b :: t).drop (DecodeRuneInString (b :: t)).2).length ≤ t.length := by
      rw [List.length_drop]
      simp only [List.length_cons]
      omega
    show runesFrom (t.length + 1) (b :: t) = _
    simp only [runesFrom, runes]
    rw [runesFrom_stable t.length _ _ hd (le_refl _)]

theorem runWidth_nil (p : Int → Bool) : runWidth p [] = 0 := rfl

theorem runWidth_cons (p : Int → Bool) (s : List Byte) (h : s ≠ []) :
    runWidth p s =
      if p (DecodeRuneInString s).1 then
        (DecodeRuneInString s).2 + runWidth p (s.drop (DecodeRuneInString s).2)
      else 0 := by
  unfold runWidth
  rw [runes_cons s h]
  by_cases hp : p (DecodeRuneInString s).1 = true
  · simp [List.takeWhile_cons, hp]
  · simp [List.takeWhile_cons, hp]

theorem runWidth_le (p : Int → Bool) : ∀ (n : Nat) (s : List Byte), s.length ≤ n →
    runWidth p s ≤ s.length := by
  intro n
  induction n with
  | zero =>
    intro s hn
    have hs : s = [] := List.length_eq_zero.mp (Nat.le_zero.mp hn)
    subst hs
    simp [runWidth_nil]
  | succ n ih =>
    intro s hn
    by_cases hs : s = []
    · subst hs
      simp [runWidth_nil]
    · have hw := decode_width s hs
      rw [runWidth_cons p s hs]
      split_ifs
      · have h1 := ih (s.drop (DecodeRuneInString s).2) (by rw [List.length_drop]; omega)
        rw [List.length_drop] at h1
        omega
      · omega

theorem runWidth_drop (p : Int → Bool) : ∀ (n : Nat) (s : List Byte), s.length ≤ n →
    runWidth p (s.drop (runWidth p s)) = 0 := by
  intro n
  induction n with
  | zero =>
    intro s hn
    have hs : s = [] := List.length_eq_zero.mp (Nat.le_zero.mp hn)
    subst hs
    simp [runWidth_nil]
  | succ n ih =>
    intro s hn
    by_cases hs : s = []
    · subst hs
      simp [runWidth_nil]
    · have hw := decode_width s hs
      by_cases hp : p (DecodeRuneInString s).1 = true
      · have h1 := ih (s.drop (DecodeRuneInString s).2) (by rw [List.length_drop]; omega)
        have h2 : runWidth p s =
            (DecodeRuneInString s).2 + runWidth p (s.drop (DecodeRuneInString s).2) := by
          rw [runWidth_cons p s hs, if_pos hp]
        rw [h2, ← List.drop_drop]
        exact h1
      · have h2 : runWidth p s = 0 := by
          rw [runWidth_cons p s hs, if_neg hp]
        rw [h2, List.drop_zero]
        exact h2

/-! ## Set strings -/

theorem codePoints_nil : codePoints [] = [] := rfl

theorem codePoints_cons (b0 : Byte) (t : List Byte) :
    codePoints (b0 :: t) = (DecodeRuneInString (b0 :: t)).1 ::
      codePoints ((b0 :: t).drop (DecodeRuneInString (b0 :: t)).2) := by
  unfold codePoints
  rw [runes_cons _ (List.cons_ne_nil _ _), List.map_cons]

/-- Induction along the decoding of a string. -/
theorem decode_induction (P : List Byte → Prop) (hnil : P [])
    (hstep : ∀ (b0 : Byte) (t : List Byte),
      P ((b0 :: t).drop (DecodeRuneInString (b0 :: t)).2) → P (b0 :: t)) :
    ∀ s : List Byte, P s := by
  have key : ∀ (n : Nat) (s : List Byte), s.length ≤ n → P s := by
    intro n
    induction n with
    | zero =>
      intro s hs
      have : s = [] := List.length_eq_zero.mp (Nat.le_zero.mp hs)
      rw [this]
      exact hnil
    | succ n ih =>
      intro s hs
      cases s with
      | nil => exact hnil
      | cons b0 t =>
        have hw := decode_width (b0 :: t) (List.cons_ne_nil _ _)
        apply hstep
        apply ih
        rw [List.length_drop]
        simp only [List.length_cons] at hs ⊢
        omega
  intro s
  exact key s.length s (le_refl _)

theorem codePoints_valid (s : List Byte) : ∀ r ∈ codePoints s, ValidRune r = true := by
  induction s using decode_induction with
  | hnil => intro r hr; simp [codePoints_nil] at hr
  | hstep b0 t ih =>
    intro r hr
    rw [codePoints_cons, List.mem_cons] at hr
    rcases hr with rfl | hr
    · exact (decode_cases b0 t).valid
    · exact ih r hr

theorem indexByteFrom_nonneg (c : Byte) : ∀ (s : List Byte) (i : Nat),
    0 ≤ indexByteFrom c s i ↔ c ∈ s := by
  intro s
  induction s with
  | nil => intro i; simp [indexByteFrom]
  | cons b t ih =>
    intro i
    unfold indexByteFrom
    by_cases hb : b = c
    · rw [if_pos hb]
      simp [hb]
    · rw [if_neg hb, ih, List.mem_cons]
      constructor
      · exact Or.inr
      · rintro (h | h)
        · exact absurd h.symm hb
        · exact h

theorem indexFrom_nonneg (sub : List Byte) : ∀ (s : List Byte) (i : Nat),
    0 ≤ indexFrom sub s i ↔ sub <:+: s := by
  intro s
  induction s with
  | nil =>
    intro i
    unfold indexFrom
    by_cases h : sub = []
    · rw [if_pos h, h]
      simp
    · rw [if_neg h]
      simp [h]
  | cons b t ih =>
    intro i
    unfold indexFrom
    rw [List.infix_cons_iff]
    by_cases h : sub.isPrefixOf (b :: t) = true
    · rw [if_pos h]
      simp [List.isPrefixOf_iff_prefix.mp h]
    · rw [if_neg h, ih]
      constructor
      · exact Or.inr
      · rintro (h1 | h1)
        · exact absurd (List.isPrefixOf_iff_prefix.mpr h1) h
        · exact h1

theorem indexRuneErrorFrom_nonneg : ∀ (n : Nat) (s : List Byte) (i : Nat), s.length ≤ n →
    (0 ≤ indexRuneErrorFrom n s i ↔ RuneError ∈ codePoints s) := by
  intro n
  induction n with
  | zero =>
    intro s i hs
    have : s = [] := List.length_eq_zero.mp (Nat.le_zero.mp hs)
    subst this
    simp [indexRuneErrorFrom, codePoints_nil]
  | succ n ih =>
    intro s i hs
    cases s with
    | nil => simp [indexRuneErrorFrom, codePoints_nil]
    | cons b0 t =>
      have hw := decode_width (b0 :: t) (List.cons_ne_nil _ _)
      simp only [indexRuneErrorFrom]
      rw [codePoints_cons, List.mem_cons]
      by_cases hr : (DecodeRuneInString (b0 :: t)).1 = RuneError
      · rw [if_pos hr]
        simp [hr]
      · rw [if_neg hr, ih _ _ (by rw [List.length_drop]; simp only [List.length_cons] at hs ⊢; omega)]
        constructor
        · exact Or.inr
        · rintro (h | h)
          · exact absurd h.symm hr
          · exact h

/-- An ASCII byte occurs in `s` exactly when it is one of its code points. -/
theorem ascii_mem_codePoints (c : Byte) (hc : c.val < 0x80) (s : List Byte) :
    c ∈ s ↔ (c.val : Int) ∈ codePoints s := by
  induction s using decode_induction with
  | hnil => simp [codePoints_nil]
  | hstep b0 t ih =>
    rw [codePoints_cons, List.mem_cons (a := (c.val : Int))]
    have hd := decode_cases b0 t
    revert ih hd
    generalize (DecodeRuneInString (b0 :: t)).1 = r
    generalize (DecodeRuneInString (b0 :: t)).2 = w
    intro ih hd
    rw [← ih]
    have hne : ∀ b : Byte, 0x80 ≤ b.val → c ≠ b := by
      intro b hb h
      rw [h] at hc
      omega
    cases hd with
    | ascii _ _ h0 =>
      simp only [List.mem_cons, List.drop_succ_cons, List.drop_zero]
      constructor
      · rintro (h | h)
        · exact Or.inl (by rw [h])
        · exact Or.inr h
      · rintro (h | h)
        · exact Or.inl (Fin.ext (by omega))
        · exact Or.inr h
    | invalid _ _ h0 =>
      simp only [List.mem_cons, List.drop_succ_cons, List.drop_zero, RuneError]
      constructor
      · rintro (h | h)
        · exact absurd h (hne b0 h0)
        · exact Or.inr h
      · rintro (h | h)
        · omega
        · exact Or.inr h
    | two _ b1 t1 h0 h1 h2 h3 =>
      simp only [List.mem_cons, List.drop_succ_cons, List.drop_zero]
      constructor
      · rintro (h | h | h)
        · exact absurd h (hne b0 (by omega))
        · exact absurd h (hne b1 (by omega))
        · exact Or.inr h
      · rintro (h | h)
        · omega
        · exact Or.inr (Or.inr h)
    | three _ b1 b2 t1 h0 h1 h2 h3 h4 h5 h6 h7 =>
      simp only [List.mem_cons, List.drop_succ_cons, List.drop_zero]
      constructor
      · rintro (h | h | h | h)
        · exact absurd h (hne b0 (by omega))
        · exact absurd h (hne b1 (by omega))
        · exact absurd h (hne b2 (by omega))
        · exact Or.inr h
      · rintro (h | h)
        · omega
        · exact Or.inr (Or.inr (Or.inr h))
    | four _ b1 b2 b3 t1 h0 h1 h2 h3 h4 h5 h6 h7 h8 h9 =>
      simp only [List.mem_cons, List.drop_succ_cons, List.drop_zero]
      constructor
      · rintro (h | h | h | h | h)
        · exact absurd h (hne b0 (by omega))
        · exact absurd h (hne b1 (by omega))
        · exact absurd h (hne b2 (by omega))
        · exact absurd h (hne b3 (by omega))
        · exact Or.inr h
      · rintro (h | h)
        · omega
        · exact Or.inr (Or.inr (Or.inr (Or.inr h)))

/-- A string that starts with a byte from `0xC2` on cannot begin at a byte
below `0xC2`. -/
theorem infix_skip (e0 : Byte) (et : List Byte) (h0 : 0xC2 ≤ e0.val) (b : Byte)
    (hb : b.val < 0xC2) (t : List Byte) : (e0 :: et) <:+: (b :: t) ↔ (e0 :: et) <:+: t := by
  rw [List.infix_cons_iff]
  constructor
  · rintro (h | h)
    · exfalso
      obtain ⟨tl, htl⟩ := h
      simp only [List.cons_append, List.cons.injEq] at htl
      rw [htl.1] at h0
      omega
    · exact h
  · exact Or.inr

/-- The bytes of a reading after the first are not starts of an encoding. -/
theorem DecodeCase.skip {b0 : Byte} {t : List Byte} {r : Int} {w : Nat}
    (h : DecodeCase (b0 :: t) r w) (e0 : Byte) (et : List Byte) (h0 : 0xC2 ≤ e0.val) :
    (e0 :: et) <:+: t ↔ (e0 :: et) <:+: (b0 :: t).drop w := by
  cases h with
  | ascii _ _ _ => simp only [List.drop_succ_cons, List.drop_zero]
  | invalid _ _ _ => simp only [List.drop_succ_cons, List.drop_zero]
  | two _ b1 t1 _ _ _ h3 =>
    simp only [List.drop_succ_cons, List.drop_zero]
    exact infix_skip e0 et h0 b1 (by omega) t1
  | three _ b1 b2 t1 _ _ _ h3 _ _ _ h7 =>
    simp only [List.drop_succ_cons, List.drop_zero]
    rw [infix_skip e0 et h0 b1 (by omega), infix_skip e0 et h0 b2 (by omega)]
  | four _ b1 b2 b3 t1 _ _ _ h3 _ _ _ h7 _ h9 =>
    simp only [List.drop_succ_cons, List.drop_zero]
    rw [infix_skip e0 et h0 b1 (by omega), infix_skip e0 et h0 b2 (by omega),
      infix_skip e0 et h0 b3 (by omega)]

/-- The encoding of a valid rune from `0x80` on, other than `RuneError`,
occurs in `s` exactly when the rune is one of the code points of `s`. -/
theorem encoded_mem_codePoints (r : Int) (hv : ValidRune r = true) (h80 : 0x80 ≤ r)
    (hne : r ≠ RuneError) (s : List Byte) :
    EncodeRune r <:+: s ↔ r ∈ codePoints s := by
  obtain ⟨e0, et, henc, he0⟩ := (decode_encode r hv h80 []).2
  induction s using decode_induction with
  | hnil => simp [codePoints_nil, henc]
  | hstep b0 t ih =>
    rw [codePoints_cons, List.mem_cons, ← ih, List.infix_cons_iff]
    have hd := decode_cases b0 t
    have hpre : EncodeRune r <+: b0 :: t ↔ r = (DecodeRuneInString (b0 :: t)).1 := by
      constructor
      · rintro ⟨tl, htl⟩
        rw [← htl, (decode_encode r hv h80 tl).1]
      · intro h
        rcases hd.range with ⟨_, h1 | h1⟩ | ⟨h1, _⟩
        · omega
        · exact absurd (h.trans h1) hne
        · rw [h, hd.encode h1]
          exact List.take_prefix _ _
    rw [hpre, henc, hd.skip e0 et he0]

/-- Membership in a set string, as `Accept` and `AcceptRun` test it with
`strings.IndexRune`, is membership among the code points of the string. -/
theorem inSet_iff_mem (valid : List Byte) (r : Int) :
    inSet valid r = true ↔ r ∈ codePoints valid := by
  unfold inSet IndexRune
  rw [decide_eq_true_iff]
  by_cases ha : 0 ≤ r ∧ r < RuneSelf
  · rw [if_pos ha]
    simp only [RuneSelf] at ha
    obtain ⟨i, rfl⟩ := Int.eq_ofNat_of_zero_le ha.1
    have hi : (byte (i : Int).toNat).val = i := by
      simp only [Int.toNat_ofNat, byte_val]
      omega
    unfold IndexByte
    rw [ge_iff_le, indexByteFrom_nonneg, ascii_mem_codePoints _ (by omega), hi]
  rw [if_neg ha]
  by_cases hr : r = RuneError
  · rw [if_pos hr, ge_iff_le, indexRuneErrorFrom_nonneg _ _ _ (le_refl _), hr]
  rw [if_neg hr]
  by_cases hv : ValidRune r = true
  · rw [if_neg (by simpa using hv)]
    unfold Index
    simp only [RuneSelf] at ha
    have h80 : 0x80 ≤ r := by
      simp only [ValidRune, MaxRune, Bool.or_eq_true, Bool.and_eq_true,
        decide_eq_true_eq] at hv
      omega
    rw [ge_iff_le, indexFrom_nonneg, encoded_mem_codePoints r hv h80 hr]
  · rw [if_pos (by simpa using hv)]
    constructor
    · intro h
      omega
    · intro h
      exact absurd (codePoints_valid valid r h) hv

/-! ## The cursor -/

theorem Next_eof (l : Lexer σ) (h : (l.input.length : Int) ≤ l.pos) :
    Next l = .ok (-1, { l with width := 0 }) := by
  unfold Next
  rw [if_pos h]

theorem Next_decode (l : Lexer σ) (h0 : 0 ≤ l.pos) (h1 : l.pos < (l.input.length : Int)) :
    Next l = .ok ((DecodeRuneInString (rest l)).1,
      { l with width := ((DecodeRuneInString (rest l)).2 : Int),
               pos := l.pos + ((DecodeRuneInString (rest l)).2 : Int) }) := by
  unfold Next
  rw [if_neg (by omega), if_neg (by omega)]
  rfl

theorem rest_ne_nil (l : Lexer σ) (h0 : 0 ≤ l.pos) (h1 : l.pos < (l.input.length : Int)) :
    rest l ≠ [] := by
  intro h
  have := congrArg List.length h
  simp only [rest, List.length_drop, List.length_nil] at this
  omega

theorem rest_eq_nil (l : Lexer σ) (h : (l.input.length : Int) ≤ l.pos) : rest l = [] := by
  unfold rest
  apply List.drop_eq_nil_of_le
  omega

theorem nextWhile_run (p : Int → Bool) (hp : p (-1) = false) :
    ∀ (fuel : Nat) (l : Lexer σ), 0 ≤ l.pos → l.pos ≤ (l.input.length : Int) →
      (l.input.length : Int) - l.pos < fuel →
      nextWhile p fuel l = .ok
        { l with
          pos := l.pos + (runWidth p (rest l) : Int) +
            ((DecodeRuneInString ((rest l).drop (runWidth p (rest l)))).2 : Int),
          width := ((DecodeRuneInString ((rest l).drop (runWidth p (rest l)))).2 : Int) } := by
  intro fuel
  induction fuel with
  | zero => intro l h0 h1 hf; omega
  | succ n ih =>
    intro l h0 h1 hf
    by_cases hend : (l.input.length : Int) ≤ l.pos
    · have hr := rest_eq_nil l hend
      simp only [nextWhile, Next_eof l hend, hp, hr, runWidth_nil, List.drop_nil, decode_nil]
      simp
    · have hlt : l.pos < (l.input.length : Int) := by omega
      have hne := rest_ne_nil l h0 hlt
      have hw := decode_width (rest l) hne
      have hlen : (rest l).length = l.input.length - l.pos.toNat := by
        simp [rest]
      simp only [nextWhile, Next_decode l h0 hlt]
      by_cases hpr : p (DecodeRuneInString (rest l)).1 = true
      · rw [if_pos hpr]
        have hrest : ∀ (w : Nat), rest ({ l with width := (w : Int), pos := l.pos + (w : Int) } : Lexer σ) =
            (rest l).drop w := by
          intro w
          simp only [rest, List.drop_drop]
          congr 1
          omega
        rw [ih _ (by simp only; omega) (by simp only; omega) (by simp only; omega)]
        rw [hrest, runWidth_cons p (rest l) hne, if_pos hpr, List.drop_drop]
        simp only [Nat.cast_add, add_comm (runWidth p _) _]
        congr 2
        · omega
      · rw [if_neg hpr, runWidth_cons p (rest l) hne, if_neg hpr]
        simp

/-! ## The cursor operations -/

theorem inSet_eof (valid : List Byte) : inSet valid (-1) = false := by
  simp [inSet, IndexRune, RuneSelf, RuneError, ValidRune, MaxRune]

theorem AcceptRun_run (valid : List Byte) (fuel : Nat) (l : Lexer σ) (h0 : 0 ≤ l.pos)
    (h1 : l.pos ≤ (l.input.length : Int)) (hf : (l.input.length : Int) - l.pos < fuel) :
    AcceptRun fuel l valid = .ok
      { l with
        pos := l.pos + (runWidth (inSet valid) (rest l) : Int),
        width := ((DecodeRuneInString
          ((rest l).drop (runWidth (inSet valid) (rest l)))).2 : Int) } := by
  unfold AcceptRun
  rw [nextWhile_run (inSet valid) (inSet_eof valid) fuel l h0 h1 hf]
  simp [Backup]

theorem inSet_eq_member (valid : List Byte) : inSet valid = member valid := by
  funext r
  rw [Bool.eq_iff_iff, inSet_iff_mem]
  simp [member]

/-- C1: from a cursor position `0 ≤ pos ≤ len(input)`, `AcceptRun(S)` returns
(with any budget above `len(input) - pos`) and leaves `pos` advanced by the
byte length of the longest prefix of the code points of `input[pos:]` that
are all code points of `S`; `start`, the input, the state and the queue are
unchanged, and an immediately repeated call returns the same lexer.  On
`"aabbcc"` with the set `"ab"` the remainder is `"cc"`. -/
theorem AcceptRun_longest_run :
    (∀ (τ : Type) (l : Lexer τ) (S : List Byte) (fuel : Nat),
      0 ≤ l.pos → l.pos ≤ (l.input.length : Int) →
      (l.input.length : Int) - l.pos < fuel →
      ∃ l1 : Lexer τ, AcceptRun fuel l S = .ok l1 ∧
        l1.pos = l.pos +
          ((((runes (l.input.drop l.pos.toNat)).takeWhile
            (fun d => decide (d.1 ∈ codePoints S))).map (fun d => d.2)).sum : Nat) ∧
        l1.start = l.start ∧ l1.input = l.input ∧ l1.state = l.state ∧
        l1.tokens = l.tokens ∧
        AcceptRun fuel l1 S = .ok l1) ∧
    (∃ l1 : Lexer Unit, AcceptRun 7 (New (str "aabbcc") none) (str "ab") = .ok l1 ∧
        l1.input.drop l1.pos.toNat = str "cc") := by
  refine ⟨?_, ?_⟩
  · intro τ l S fuel h0 h1 hf
    show ∃ l1 : Lexer τ, AcceptRun fuel l S = .ok l1 ∧
        l1.pos = l.pos + (runWidth (member S) (rest l) : Int) ∧
        l1.start = l.start ∧ l1.input = l.input ∧ l1.state = l.state ∧
        l1.tokens = l.tokens ∧ AcceptRun fuel l1 S = .ok l1
    rw [← inSet_eq_member]
    have hle := runWidth_le (inSet S) (rest l).length (rest l) (le_refl _)
    have hlen : (rest l).length = l.input.length - l.pos.toNat := by simp [rest]
    refine ⟨_, AcceptRun_run S fuel l h0 h1 hf, rfl, rfl, rfl, rfl, rfl, ?_⟩
    rw [AcceptRun_run S fuel _ (by simp only; omega) (by simp only; omega)
      (by simp only; omega)]
    have hrest : ∀ (k : Nat) (w : Int),
        rest ({ l with pos := l.pos + (k : Int), width := w } : Lexer τ) = (rest l).drop k := by
      intro k w
      simp only [rest, List.drop_drop]
      congr 1
      omega
    simp only [hrest, runWidth_drop (inSet S) (rest l).length (rest l) (le_refl _)]
    simp
  · exact ⟨{ state := none, input := str "aabbcc", start := 0, pos := 4, width := 1,
             tokens := [] }, by decide, by decide⟩

/-- Instance: `AcceptRun("ab")` on `New("aabbcc", nil)`, the row of `TestAcceptRun`. -/
theorem AcceptRun_longest_run_witness :
    ∃ l1 : Lexer Unit, AcceptRun 7 (New (str "aabbcc") none) (str "ab") = .ok l1 ∧
      l1.pos = (0 : Int) +
          ((((runes ((str "aabbcc").drop 0)).takeWhile
            (fun d => decide (d.1 ∈ codePoints (str "ab")))).map (fun d => d.2)).sum : Nat) ∧
      l1.start = 0 ∧ AcceptRun 7 l1 (str "ab") = .ok l1 := by
  obtain ⟨l1, h1, h2, h3, _, _, _, h4⟩ :=
    AcceptRun_longest_run.1 Unit (New (str "aabbcc") none) (str "ab") 7
      (by decide) (by decide) (by decide)
  exact ⟨l1, h1, h2, h3, h4⟩

theorem slice_in_range (s : List Byte) (lo hi : Int) (h0 : 0 ≤ lo) (h1 : lo ≤ hi)
    (h2 : hi ≤ (s.length : Int)) :
    slice s lo hi = some ((s.drop lo.toNat).take (hi - lo).toNat) := by
  unfold slice
  rw [if_pos ⟨h0, h1, h2⟩]

theorem slice_out_of_range (s : List Byte) (lo hi : Int)
    (h : lo < 0 ∨ hi < lo ∨ (s.length : Int) < hi) : slice s lo hi = none := by
  unfold slice
  rw [if_neg (by omega)]

theorem AcceptSequence_in_range (l : Lexer σ) (sequence : List Byte) (h0 : 0 ≤ l.pos)
    (h1 : l.pos + (sequence.length : Int) ≤ (l.input.length : Int)) :
    AcceptSequence l sequence =
      if (rest l).take sequence.length = sequence then
        .ok (true, { l with pos := l.pos + (sequence.length : Int) })
      else .ok (false, l) := by
  unfold AcceptSequence
  rw [slice_in_range _ _ _ h0 (by omega) h1]
  have : (l.pos + (sequence.length : Int) - l.pos).toNat = sequence.length := by omega
  simp only [this, rest]

theorem AcceptSequence_out_of_range (l : Lexer σ) (sequence : List Byte)
    (h : (l.input.length : Int) < l.pos + (sequence.length : Int)) :
    AcceptSequence l sequence = .error .sliceBounds := by
  unfold AcceptSequence
  rw [slice_out_of_range _ _ _ (Or.inr (Or.inr h))]

/-- C2, as amended: for a cursor with `0 ≤ pos` and a literal that fits in the
remaining input, `AcceptSequence(seq)` returns `true` exactly when the bytes
`input[pos : pos+len(seq)]` equal `seq`; on `true` `pos` grows by the byte
length of `seq`, on `false` the lexer is unchanged, and `start` is unchanged
in both cases.  The three rows of `TestAcceptSequence` leave `"c"`,
`"aabbcc"` and `"2017"`. -/
theorem AcceptSequence_matches :
    (∀ (τ : Type) (l : Lexer τ) (seq : List Byte),
      0 ≤ l.pos → l.pos + (seq.length : Int) ≤ (l.input.length : Int) →
      ∃ (b : Bool) (l1 : Lexer τ), AcceptSequence l seq = .ok (b, l1) ∧
        (b = true ↔ (l.input.drop l.pos.toNat).take seq.length = seq) ∧
        (b = true → l1.pos = l.pos + (seq.length : Int)) ∧
        (b = false → l1.pos = l.pos) ∧
        l1.start = l.start ∧ l1.input = l.input ∧ l1.width = l.width ∧
        l1.state = l.state ∧ l1.tokens = l.tokens) ∧
    (∃ l1 : Lexer Unit, AcceptSequence (New (str "abcc") none) (str "abc") = .ok (true, l1) ∧
        rest l1 = str "c") ∧
    (∃ l1 : Lexer Unit, AcceptSequence (New (str "aabbcc") none) (str "abc") = .ok (false, l1) ∧
        rest l1 = str "aabbcc") ∧
    (∃ l1 : Lexer Unit, AcceptSequence (New (str "foo ©2017") none) (str "foo ©") =
        .ok (true, l1) ∧ l1.pos = 6 ∧ rest l1 = str "2017") := by
  refine ⟨?_, ?_, ?_, ?_⟩
  · intro τ l seq h0 h1
    rw [AcceptSequence_in_range l seq h0 h1]
    by_cases hm : (rest l).take seq.length = seq
    · rw [if_pos hm]
      exact ⟨true, _, rfl, by simpa [rest] using hm, fun _ => rfl, fun h => by simp at h,
        rfl, rfl, rfl, rfl, rfl⟩
    · rw [if_neg hm]
      exact ⟨false, _, rfl, by simpa [rest] using hm, fun h => by simp at h, fun _ => rfl,
        rfl, rfl, rfl, rfl, rfl⟩
  · exact ⟨{ state := none, input := str "abcc", start := 0, pos := 3, width := 0,
             tokens := [] }, by decide, by decide⟩
  · exact ⟨{ state := none, input := str "aabbcc", start := 0, pos := 0, width := 0,
             tokens := [] }, by decide, by decide⟩
  · exact ⟨{ state := none, input := str "foo ©2017", start := 0, pos := 6, width := 0,
             tokens := [] }, by decide, by decide, by decide⟩

/-- Instance: `AcceptSequence("foo ©")` on `New("foo ©2017", nil)`. -/
theorem AcceptSequence_matches_witness :
    ∃ (b : Bool) (l1 : Lexer Unit),
      AcceptSequence (New (str "foo ©2017") none) (str "foo ©") = .ok (b, l1) ∧
      (b = true ↔ ((str "foo ©2017").drop 0).take (str "foo ©").length = str "foo ©") ∧
      l1.start = 0 := by
  obtain ⟨b, l1, h1, h2, _, _, h3, _⟩ :=
    AcceptSequence_matches.1 Unit (New (str "foo ©2017") none) (str "foo ©")
      (by decide) (by decide)
  exact ⟨b, l1, h1, h2, h3⟩

/-- Counterexample to `AcceptSequence` returning for every cursor with
`pos + len(seq) ≤ len(input)`: on the input `"a"`, `Next`, `Backup`, `Backup`
leave `pos = -1`; there the empty literal and the literal `"a"` both fit by
that bound, and the slice expression `l.input[l.pos:l.pos+len(sequence)]`
panics instead of giving `true` or `false`. -/
theorem AcceptSequence_negative_pos_panics :
    ∃ (r : Int) (l1 : Lexer Unit), Next (New (str "a") none) = .ok (r, l1) ∧
      (Backup (Backup l1)).pos = -1 ∧
      (Backup (Backup l1)).pos + (([] : List Byte).length : Int) ≤
        ((Backup (Backup l1)).input.length : Int) ∧
      AcceptSequence (Backup (Backup l1)) [] = .error .sliceBounds ∧
      (Backup (Backup l1)).pos + ((str "a").length : Int) ≤
        ((Backup (Backup l1)).input.length : Int) ∧
      AcceptSequence (Backup (Backup l1)) (str "a") = .error .sliceBounds :=
  ⟨97, { New (str "a") none with pos := 1, width := 1 }, by decide, by decide, by decide,
    by decide, by decide, by decide⟩

/-- C3: with a literal longer than the remaining input the slice expression of
`AcceptSequence` is out of range: on the input `"ab"` the call
`AcceptSequence("abc")` panics instead of returning `false`. -/
theorem AcceptSequence_long_literal_panics :
    AcceptSequence (New (str "ab") none : Lexer Unit) (str "abc") = .error .sliceBounds :=
  AcceptSequence_out_of_range _ _ (by decide)

/-! ## The pull loop and the token queue -/

theorem NextToken_queued (g : σ → StateFn σ) (fuel : Nat) (l : Lexer σ) (t : Token)
    (ts : List Token) (h : l.tokens = t :: ts) :
    NextToken g fuel l = .ok (t, { l with tokens := ts }) := by
  cases fuel <;> simp [NextToken, h]

theorem NextToken_terminal (g : σ → StateFn σ) (fuel : Nat) (l : Lexer σ)
    (hs : l.state = none) (hq : l.tokens = []) :
    NextToken g fuel l = .ok ({ Typ := EOF, Literal := [] }, l) := by
  cases fuel <;> simp [NextToken, hs, hq]

theorem NextToken_step (g : σ → StateFn σ) (fuel : Nat) (l : Lexer σ) (s : σ)
    (hs : l.state = some s) (hq : l.tokens = []) :
    NextToken g (fuel + 1) l =
      match g s l with
      | .error e => .error e
      | .ok (s1, l1) => NextToken g fuel { l1 with state := s1 } := by
  conv_lhs => unfold NextToken
  simp only [hs, hq]

theorem NextTokens_terminal (g : σ → StateFn σ) (fuel : Nat) (l : Lexer σ)
    (hs : l.state = none) (hq : l.tokens = []) (k : Nat) :
    NextTokens g fuel k l = .ok (List.replicate k { Typ := EOF, Literal := [] }, l) := by
  induction k with
  | zero => rfl
  | succ k ih => simp [NextTokens, NextToken_terminal g fuel l hs hq, ih, List.replicate_succ]

theorem NextTokens_drain (g : σ → StateFn σ) (fuel : Nat) :
    ∀ (q : List Token) (l : Lexer σ), l.tokens = q →
      NextTokens g fuel q.length l = .ok (q, { l with tokens := [] }) := by
  intro q
  induction q with
  | nil =>
    intro l h
    simp only [List.length_nil, NextTokens, ← h]
  | cons t ts ih =>
    intro l h
    simp only [List.length_cons, NextTokens, NextToken_queued g fuel l t ts h]
    rw [ih _ rfl]

theorem NextTokens_append (g : σ → StateFn σ) (fuel : Nat) :
    ∀ (j k : Nat) (l l1 l2 : Lexer σ) (a b : List Token),
      NextTokens g fuel j l = .ok (a, l1) → NextTokens g fuel k l1 = .ok (b, l2) →
      NextTokens g fuel (j + k) l = .ok (a ++ b, l2) := by
  intro j
  induction j with
  | zero =>
    intro k l l1 l2 a b h1 h2
    simp only [NextTokens, Except.ok.injEq, Prod.mk.injEq] at h1
    obtain ⟨rfl, rfl⟩ := h1
    simpa using h2
  | succ j ih =>
    intro k l l1 l2 a b h1 h2
    rw [Nat.succ_add]
    simp only [NextTokens] at h1 ⊢
    cases hn : NextToken g fuel l with
    | error e => simp [hn] at h1
    | ok x =>
      obtain ⟨t, l3⟩ := x
      simp only [hn] at h1 ⊢
      cases hr : NextTokens g fuel j l3 with
      | error e => simp [hr] at h1
      | ok y =>
        obtain ⟨ts, l4⟩ := y
        simp only [hr, Except.ok.injEq, Prod.mk.injEq] at h1
        obtain ⟨rfl, rfl⟩ := h1
        rw [ih k l3 l4 l2 ts b hr h2]
        rfl

/-- C5: when the state is `nil` and the queue is empty, `NextToken` returns
`Token{EOF, ""}` and leaves the lexer unchanged, so any number of further
calls return `Token{EOF, ""}` as well. -/
theorem NextToken_terminal_EOF (g : σ → StateFn σ) (fuel : Nat) (l : Lexer σ)
    (hs : l.state = none) (hq : l.tokens = []) :
    NextToken g fuel l = .ok ({ Typ := EOF, Literal := [] }, l) ∧
    ∀ k : Nat, NextTokens g fuel k l =
      .ok (List.replicate k { Typ := EOF, Literal := [] }, l) :=
  ⟨NextToken_terminal g fuel l hs hq, NextTokens_terminal g fuel l hs hq⟩

/-- Instance: a lexer made by `New("x", nil)`. -/
theorem NextToken_terminal_EOF_witness :
    NextToken (testGrammar 0) 0 (New (str "x") none) =
        .ok ({ Typ := EOF, Literal := [] }, New (str "x") none) ∧
    ∀ k : Nat, NextTokens (testGrammar 0) 0 k (New (str "x") none) =
      .ok (List.replicate k { Typ := EOF, Literal := [] }, New (str "x") none) :=
  NextToken_terminal_EOF (testGrammar 0) 0 (New (str "x") none) rfl rfl

/-- C6: when the queue is not empty, `NextToken` returns its oldest token and
removes exactly that one; whatever the grammar and the budget, no state
function runs and nothing else changes.  Hence the tokens in the queue, which
sends fill at the back, come out of successive calls in emission order. -/
theorem NextToken_dequeues_oldest (g : σ → StateFn σ) (fuel : Nat) (l : Lexer σ) (t : Token)
    (ts : List Token) (h : l.tokens = t :: ts) :
    NextToken g fuel l = .ok (t, { l with tokens := ts }) ∧
    NextTokens g fuel (t :: ts).length l = .ok (t :: ts, { l with tokens := [] }) ∧
    (∀ (l0 : Lexer σ) (a b : Token), l0.tokens = [] →
      ∃ l1 l2 : Lexer σ, send l0 a = .ok l1 ∧ send l1 b = .ok l2 ∧
        NextTokens g fuel 2 l2 = .ok ([a, b], l0)) := by
  refine ⟨NextToken_queued g fuel l t ts h, NextTokens_drain g fuel (t :: ts) l h, ?_⟩
  intro l0 a b h0
  refine ⟨{ l0 with tokens := [a] }, { l0 with tokens := [a, b] }, ?_, ?_, ?_⟩
  · simp [send, h0, tokensCap]
  · simp [send, tokensCap]
  · have := NextTokens_drain g fuel [a, b] { l0 with tokens := [a, b] } rfl
    simp only [List.length_cons, List.length_nil] at this
    rw [this, ← h0]

/-- Instance: a queue holding `WORD "a"` and `WORD "b"`. -/
theorem NextToken_dequeues_oldest_witness :
    NextToken (testGrammar 0) 0
        ({ New (str "x") (some TestState.lex) with tokens := [⟨word, str "a"⟩, ⟨word, str "b"⟩] }) =
      .ok (⟨word, str "a"⟩,
        { New (str "x") (some TestState.lex) with tokens := [⟨word, str "b"⟩] }) :=
  (NextToken_dequeues_oldest (testGrammar 0) 0
    ({ New (str "x") (some TestState.lex) with tokens := [⟨word, str "a"⟩, ⟨word, str "b"⟩] })
    ⟨word, str "a"⟩ [⟨word, str "b"⟩] rfl).1

theorem send_room (l : Lexer σ) (t : Token) (h : l.tokens.length < 2) :
    send l t = .ok { l with tokens := l.tokens ++ [t] } := by
  unfold send
  rw [if_pos (by simpa [tokensCap] using h)]

theorem send_full (l : Lexer σ) (t : Token) (h : 2 ≤ l.tokens.length) :
    send l t = .error .blocked := by
  unfold send
  rw [if_neg (by simp only [tokensCap]; omega)]

/-- C7: with `0 ≤ start ≤ pos ≤ len(input)` and fewer than 2 queued tokens,
`Emit(t)` appends the single token `Token{t, input[start:pos]}` at the back of
the queue and then sets `start = pos`; `pos`, the input, the state, `width`
and the tokens queued before are unchanged. -/
theorem Emit_appends (l : Lexer σ) (t : TokenType) (h0 : 0 ≤ l.start) (h1 : l.start ≤ l.pos)
    (h2 : l.pos ≤ (l.input.length : Int)) (hq : l.tokens.length < 2) :
    Emit l t = .ok
      { l with
        tokens := l.tokens ++
          [{ Typ := t, Literal := (l.input.take l.pos.toNat).drop l.start.toNat }],
        start := l.pos } := by
  unfold Emit CurrentInput
  rw [slice_in_range _ _ _ h0 h1 h2]
  simp only [send_room l _ hq]
  have hk : l.pos.toNat = l.start.toNat + (l.pos - l.start).toNat := by omega
  have hs : (l.input.take l.pos.toNat).drop l.start.toNat =
      (l.input.drop l.start.toNat).take (l.pos - l.start).toNat := by
    rw [hk, List.drop_take]
    congr 1
    omega
  rw [hs]

/-- Instance: `Emit(word)` on the input `"abc"` with `start = 1` and `pos = 2`. -/
theorem Emit_appends_witness :
    Emit ({ New (str "abc") none with pos := 2, start := 1 } : Lexer Unit) word = .ok
      { state := none, input := str "abc", start := 2, pos := 2, width := 0,
        tokens := [{ Typ := word, Literal := str "b" }] } :=
  Emit_appends ({ New (str "abc") none with pos := 2, start := 1 } : Lexer Unit) word
    (by decide) (by decide) (by decide) (by decide)

/-- C9: with `0 ≤ pos < len(input)`, `Next` returns the code point decoded at
`input[pos:]`, advances `pos` by its width `w` and records `width = w`, where
`1 ≤ w ≤ 4` and `pos + w ≤ len(input)`; with `pos ≥ len(input)` it returns
`-1`, sets `width = 0` and leaves `pos`.  Nothing else changes. -/
theorem Next_decodes (l : Lexer σ) (h0 : 0 ≤ l.pos) :
    (l.pos < (l.input.length : Int) →
      ∃ w : Nat, Next l = .ok ((DecodeRuneInString (l.input.drop l.pos.toNat)).1,
          { l with pos := l.pos + (w : Int), width := (w : Int) }) ∧
        w = (DecodeRuneInString (l.input.drop l.pos.toNat)).2 ∧
        1 ≤ w ∧ w ≤ 4 ∧ l.pos + (w : Int) ≤ (l.input.length : Int)) ∧
    ((l.input.length : Int) ≤ l.pos → Next l = .ok (-1, { l with width := 0 })) := by
  refine ⟨?_, Next_eof l⟩
  intro hlt
  have hw := decode_width (rest l) (rest_ne_nil l h0 hlt)
  have hlen : (rest l).length = l.input.length - l.pos.toNat := by simp [rest]
  refine ⟨(DecodeRuneInString (rest l)).2, ?_, rfl, hw.1, hw.2.2, ?_⟩
  · rw [Next_decode l h0 hlt]
    rfl
  · omega

/-- Instance: `Next` on `New("©x", nil)` reads the two bytes of `©`. -/
theorem Next_decodes_witness :
    ∃ w : Nat, Next (New (str "©x") none : Lexer Unit) =
        .ok ((DecodeRuneInString ((str "©x").drop 0)).1,
          { New (str "©x") none with pos := 0 + (w : Int), width := (w : Int) }) ∧
      w = (DecodeRuneInString ((str "©x").drop 0)).2 ∧ 1 ≤ w ∧ w ≤ 4 ∧
      (0 : Int) + (w : Int) ≤ ((str "©x").length : Int) :=
  (Next_decodes (New (str "©x") none : Lexer Unit) (by decide)).1 (by decide)

/-- C10: from a cursor with `0 ≤ pos`, `Next` returns, and `Backup` called
right after it restores `pos` to its value before the `Next`, leaving `start`,
the input, the state and the queue as they were; at the end of the input
`Next` itself already leaves `pos`. -/
theorem Backup_after_Next (l : Lexer σ) (h0 : 0 ≤ l.pos) :
    ∃ (r : Int) (l1 : Lexer σ), Next l = .ok (r, l1) ∧
      (Backup l1).pos = l.pos ∧ (Backup l1).start = l.start ∧
      (Backup l1).input = l.input ∧ (Backup l1).state = l.state ∧
      (Backup l1).tokens = l.tokens ∧
      ((l.input.length : Int) ≤ l.pos → r = -1 ∧ l1.pos = l.pos) := by
  by_cases hend : (l.input.length : Int) ≤ l.pos
  · exact ⟨_, _, Next_eof l hend, by simp [Backup], rfl, rfl, rfl, rfl, fun _ => ⟨rfl, rfl⟩⟩
  · exact ⟨_, _, Next_decode l h0 (by omega), by simp [Backup], rfl, rfl, rfl, rfl,
      fun h => absurd h hend⟩

/-- Instance: `Next` then `Backup` on `New("©x", nil)`. -/
theorem Backup_after_Next_witness :
    ∃ (r : Int) (l1 : Lexer Unit), Next (New (str "©x") none) = .ok (r, l1) ∧
      (Backup l1).pos = 0 ∧ (Backup l1).start = 0 ∧
      (Backup l1).input = str "©x" ∧ (Backup l1).state = none ∧
      (Backup l1).tokens = [] ∧
      ((((str "©x").length : Nat) : Int) ≤ 0 → r = -1 ∧ l1.pos = 0) :=
  Backup_after_Next (New (str "©x") none : Lexer Unit) (by decide)

/-! ## Budgets: a run that does not exhaust its budget is unchanged by a larger one -/

theorem nextWhile_mono (p : Int → Bool) : ∀ (n : Nat) (l : Lexer σ),
    nextWhile p n l ≠ .error .fuel → ∀ m : Nat, n ≤ m → nextWhile p m l = nextWhile p n l := by
  intro n
  induction n with
  | zero => intro l h; exact absurd rfl h
  | succ n ih =>
    intro l h m hm
    obtain ⟨m, rfl⟩ : ∃ m1, m = m1 + 1 := ⟨m - 1, by omega⟩
    simp only [nextWhile] at h ⊢
    cases hN : Next l with
    | error e => rfl
    | ok x =>
      obtain ⟨r, l1⟩ := x
      simp only [hN] at h ⊢
      by_cases hp : p r = true
      · simp only [hp, if_true] at h ⊢
        exact ih l1 h m (by omega)
      · rw [if_neg hp, if_neg hp]

theorem ignoreWhile_mono : ∀ (n : Nat) (l : Lexer σ),
    ignoreWhile n l ≠ .error .fuel → ∀ m : Nat, n ≤ m → ignoreWhile m l = ignoreWhile n l := by
  intro n
  induction n with
  | zero => intro l h; exact absurd rfl h
  | succ n ih =>
    intro l h m hm
    obtain ⟨m, rfl⟩ : ∃ m1, m = m1 + 1 := ⟨m - 1, by omega⟩
    simp only [ignoreWhile] at h ⊢
    cases hN : Next l with
    | error e => rfl
    | ok x =>
      obtain ⟨r, l1⟩ := x
      simp only [hN] at h ⊢
      by_cases hp : IsSpace r = true
      · simp only [hp, if_true] at h ⊢
        exact ih _ h m (by omega)
      · rw [if_neg hp, if_neg hp]

theorem AcceptAlpha_mono (n m : Nat) (hm : n ≤ m) (l : Lexer σ)
    (h : AcceptAlpha n l ≠ .error .fuel) : AcceptAlpha m l = AcceptAlpha n l := by
  unfold AcceptAlpha at h ⊢
  by_cases hf : nextWhile IsAlpha n l = .error .fuel
  · rw [hf] at h
    exact absurd rfl h
  · rw [nextWhile_mono IsAlpha n l hf m hm]

theorem AcceptDigits_mono (n m : Nat) (hm : n ≤ m) (l : Lexer σ)
    (h : AcceptDigits n l ≠ .error .fuel) : AcceptDigits m l = AcceptDigits n l := by
  unfold AcceptDigits at h ⊢
  by_cases hf : nextWhile IsDigit n l = .error .fuel
  · rw [hf] at h
    exact absurd rfl h
  · rw [nextWhile_mono IsDigit n l hf m hm]

theorem IgnoreWhitespace_mono (n m : Nat) (hm : n ≤ m) (l : Lexer σ)
    (h : IgnoreWhitespace n l ≠ .error .fuel) : IgnoreWhitespace m l = IgnoreWhitespace n l := by
  unfold IgnoreWhitespace at h ⊢
  by_cases hf : ignoreWhile n l = .error .fuel
  · rw [hf] at h
    exact absurd rfl h
  · rw [ignoreWhile_mono n l hf m hm]

theorem testGrammar_mono (n m : Nat) (hm : n ≤ m) (s : TestState) (l : Lexer TestState)
    (h : testGrammar n s l ≠ .error .fuel) : testGrammar m s l = testGrammar n s l := by
  cases s with
  | lex =>
    simp only [testGrammar, bind, Except.bind] at h ⊢
    cases hP : Peek l with
    | error e => rfl
    | ok x =>
      obtain ⟨r, l1⟩ := x
      simp only [hP] at h ⊢
      by_cases hr : r = -1
      · simp only [hr, if_true]
      · simp only [hr, if_false] at h ⊢
        by_cases hf : IgnoreWhitespace n l1 = .error .fuel
        · rw [hf] at h
          exact absurd rfl h
        · rw [IgnoreWhitespace_mono n m hm l1 hf]
  | lexWord =>
    simp only [testGrammar, bind, Except.bind] at h ⊢
    by_cases hf : AcceptAlpha n l = .error .fuel
    · rw [hf] at h
      exact absurd rfl h
    · rw [AcceptAlpha_mono n m hm l hf]
  | lexNumber =>
    simp only [testGrammar, bind, Except.bind] at h ⊢
    by_cases hf : AcceptDigits n l = .error .fuel
    · rw [hf] at h
      exact absurd rfl h
    · rw [AcceptDigits_mono n m hm l hf]
  | lexPunctuation => rfl

theorem NextToken_mono (g g1 : σ → StateFn σ)
    (hg : ∀ (s : σ) (l : Lexer σ), g s l ≠ .error .fuel → g1 s l = g s l) :
    ∀ (k : Nat) (l : Lexer σ), NextToken g k l ≠ .error .fuel →
      ∀ k1 : Nat, k ≤ k1 → NextToken g1 k1 l = NextToken g k l := by
  intro k
  induction k with
  | zero =>
    intro l h k1 _
    cases hq : l.tokens with
    | cons t ts => rw [NextToken_queued g1 k1 l t ts hq, NextToken_queued g 0 l t ts hq]
    | nil =>
      cases hs : l.state with
      | none => rw [NextToken_terminal g1 k1 l hs hq, NextToken_terminal g 0 l hs hq]
      | some s =>
        exfalso
        apply h
        simp [NextToken, hs, hq]
  | succ k ih =>
    intro l h k1 hk
    obtain ⟨k1, rfl⟩ : ∃ j, k1 = j + 1 := ⟨k1 - 1, by omega⟩
    cases hq : l.tokens with
    | cons t ts => rw [NextToken_queued g1 _ l t ts hq, NextToken_queued g _ l t ts hq]
    | nil =>
      cases hs : l.state with
      | none => rw [NextToken_terminal g1 _ l hs hq, NextToken_terminal g _ l hs hq]
      | some s =>
        rw [NextToken_step g k l s hs hq] at h
        rw [NextToken_step g k l s hs hq, NextToken_step g1 k1 l s hs hq]
        by_cases hf : g s l = .error .fuel
        · rw [hf] at h
          exact absurd rfl h
        · rw [hg s l hf]
          cases hr : g s l with
          | error e => rfl
          | ok x =>
            obtain ⟨s1, l1⟩ := x
            simp only [hr] at h ⊢
            exact ih _ h k1 (by omega)

theorem NextTokens_mono (g g1 : σ → StateFn σ)
    (hg : ∀ (s : σ) (l : Lexer σ), g s l ≠ .error .fuel → g1 s l = g s l)
    (k k1 : Nat) (hk : k ≤ k1) :
    ∀ (j : Nat) (l : Lexer σ), NextTokens g k j l ≠ .error .fuel →
      NextTokens g1 k1 j l = NextTokens g k j l := by
  intro j
  induction j with
  | zero => intro l _; rfl
  | succ j ih =>
    intro l h
    simp only [NextTokens] at h ⊢
    by_cases hf : NextToken g k l = .error .fuel
    · rw [hf] at h
      exact absurd rfl h
    · rw [NextToken_mono g g1 hg k l hf k1 hk]
      cases hr : NextToken g k l with
      | error e => rfl
      | ok x =>
        obtain ⟨t, l1⟩ := x
        simp only [hr] at h ⊢
        by_cases hf1 : NextTokens g k j l1 = .error .fuel
        · rw [hf1] at h
          exact absurd rfl h
        · rw [ih l1 hf1]

/-! ## The scenario of `TestLexing` -/

set_option maxRecDepth 100000 in
theorem testLexing_run :
    NextTokens (testGrammar 54) 2 13 (New testInput (some TestState.lex)) =
      .ok (testExpected ++ [{ Typ := EOF, Literal := [] }], testFinal) := by
  decide

/-- C4: with the grammar of `TestLexing`, `New(input, lex)` followed by
successive `NextToken` calls returns the twelve expected tokens, from
`WORD "this"` to `ILLEGAL "bad punctuation"`, and then `Token{EOF, ""}` on
every further call, whenever the cursor loops may run 54 times and
`NextToken` may invoke two state functions per call. -/
theorem TestLexing_tokens (fi fo : Nat) (hfi : 54 ≤ fi) (hfo : 2 ≤ fo) (k : Nat) :
    NextTokens (testGrammar fi) fo (13 + k) (New testInput (some TestState.lex)) =
      .ok (testExpected ++ List.replicate (1 + k) { Typ := EOF, Literal := [] }, testFinal) ∧
    testExpected =
      [⟨str "WORD", str "this"⟩, ⟨str "WORD", str "is"⟩, ⟨str "WORD", str "a"⟩,
       ⟨str "WORD", str "string"⟩, ⟨str "WORD", str "of"⟩, ⟨str "WORD", str "words"⟩,
       ⟨str "WORD", str "and"⟩, ⟨str "WORD", str "numbers"⟩, ⟨str "PUNCTUATION", str ":"⟩,
       ⟨str "NUMBER", str "1234567890"⟩, ⟨str "WORD", str "abc"⟩,
       ⟨str "ILLEGAL", str "bad punctuation"⟩] := by
  refine ⟨?_, rfl⟩
  have h13 : NextTokens (testGrammar fi) fo 13 (New testInput (some TestState.lex)) =
      .ok (testExpected ++ [{ Typ := EOF, Literal := [] }], testFinal) := by
    rw [NextTokens_mono (testGrammar 54) (testGrammar fi)
      (fun s l h => testGrammar_mono 54 fi hfi s l h) 2 fo hfo 13 _
      (by rw [testLexing_run]; exact fun h => Except.noConfusion h)]
    exact testLexing_run
  have hk := NextTokens_terminal (testGrammar fi) fo testFinal rfl rfl k
  rw [NextTokens_append (testGrammar fi) fo 13 k _ _ _ _ _ h13 hk]
  simp [List.replicate_succ, Nat.add_comm 1 k, List.replicate_succ', List.append_assoc]

/-- Instance: fifteen calls with the smallest budgets. -/
theorem TestLexing_tokens_witness :
    NextTokens (testGrammar 54) 2 (13 + 2) (New testInput (some TestState.lex)) =
      .ok (testExpected ++ List.replicate (1 + 2) { Typ := EOF, Literal := [] }, testFinal) :=
  (TestLexing_tokens 54 2 (by decide) (by decide) 2).1

/-! ## Errors -/

theorem Errorf_room (l : Lexer σ) (msg : List Byte) (h : l.tokens.length < 2) :
    Errorf l msg =
      .ok (none, { l with tokens := l.tokens ++ [{ Typ := ILLEGAL, Literal := msg }] }) := by
  unfold Errorf
  rw [send_room l _ h]

theorem NextTokens_first (g : σ → StateFn σ) (fuel fuel1 : Nat) (l l1 : Lexer σ)
    (h : NextToken g fuel l = NextToken g fuel1 l1) (j : Nat) :
    NextTokens g fuel (j + 1) l =
      match NextToken g fuel1 l1 with
      | .error e => .error e
      | .ok (t, l2) =>
        match NextTokens g fuel j l2 with
        | .error e => .error e
        | .ok (ts, l3) => .ok (t :: ts, l3) := by
  simp only [NextTokens, h]

/-- C8, as amended: when the queue holds fewer than 2 tokens, `Errorf(msg)`
enqueues exactly the token `Token{ILLEGAL, msg}`, returns `nil` and changes
nothing else; so when `NextToken` runs a state function that has emitted at
most one token (lexer `l1`) and then returns the result of `Errorf(msg)`,
successive `NextToken` calls return that token (if any), then
`Token{ILLEGAL, msg}`, then `Token{EOF, ""}` on every further call. -/
theorem Errorf_then_EOF :
    (∀ (τ : Type) (l : Lexer τ) (msg : List Byte), l.tokens.length < 2 →
      Errorf l msg =
        .ok (none, { l with tokens := l.tokens ++ [{ Typ := ILLEGAL, Literal := msg }] })) ∧
    (∀ (τ : Type) (g : τ → StateFn τ) (s : τ) (l l1 : Lexer τ) (msg : List Byte)
      (fuel k : Nat),
      l.state = some s → l.tokens = [] → l1.tokens.length ≤ 1 → g s l = Errorf l1 msg →
      NextTokens g (fuel + 1) (l1.tokens.length + 1 + k) l =
        .ok (l1.tokens ++ [{ Typ := ILLEGAL, Literal := msg }] ++
              List.replicate k { Typ := EOF, Literal := [] },
             { l1 with state := none, tokens := [] })) := by
  refine ⟨fun τ l msg h => Errorf_room l msg h, ?_⟩
  intro τ g s l l1 msg fuel k hs hq hlen hg
  have hE := Errorf_room l1 msg (by omega)
  -- the lexer in which the step ends
  have hstep : ∀ (t : Token) (ts : List Token),
      l1.tokens ++ [{ Typ := ILLEGAL, Literal := msg }] = t :: ts →
      NextToken g (fuel + 1) l = NextToken g (fuel + 1)
        { l1 with state := none,
                  tokens := l1.tokens ++ [{ Typ := ILLEGAL, Literal := msg }] } := by
    intro t ts hts
    rw [NextToken_step g fuel l s hs hq, hg, hE]
    simp only
    rw [NextToken_queued g fuel _ t ts hts, NextToken_queued g (fuel + 1) _ t ts hts]
  have hdrain := NextTokens_drain g (fuel + 1)
    (l1.tokens ++ [{ Typ := ILLEGAL, Literal := msg }])
    { l1 with state := none, tokens := l1.tokens ++ [{ Typ := ILLEGAL, Literal := msg }] } rfl
  have hterm := NextTokens_terminal g (fuel + 1)
    ({ l1 with state := none, tokens := [] } : Lexer τ) rfl rfl k
  have hall := NextTokens_append g (fuel + 1) _ k _ _ _ _ _ hdrain hterm
  simp only [List.length_append, List.length_cons, List.length_nil] at hall
  rw [← hall]
  cases hl1 : l1.tokens with
  | nil =>
    have h1 := hstep { Typ := ILLEGAL, Literal := msg } [] (by rw [hl1]; rfl)
    simp only [hl1, List.nil_append, List.length_nil, Nat.zero_add] at h1 ⊢
    rw [Nat.add_comm 1 k, NextTokens_first g _ _ _ _ h1 k]
    rfl
  | cons t ts =>
    have h1 := hstep t (ts ++ [{ Typ := ILLEGAL, Literal := msg }]) (by rw [hl1]; rfl)
    simp only [hl1] at h1 ⊢
    have hj : (t :: ts).length + 0 + 1 + k = ((t :: ts).length + k) + 1 := by omega
    rw [hj, NextTokens_first g _ _ _ _ h1]
    rfl

/-- Instance: `Errorf("bad punctuation")` with one token queued, and the
grammar whose only state function is `Errorf("bad")`, run on `"x"`. -/
theorem Errorf_then_EOF_witness :
    Errorf ({ New (str "a.") none with pos := 2, start := 1, tokens := [⟨word, str "a"⟩] } :
        Lexer Unit) (str "bad punctuation") =
      .ok (none, { state := none, input := str "a.", start := 1, pos := 2, width := 0,
                   tokens := [⟨word, str "a"⟩, ⟨ILLEGAL, str "bad punctuation"⟩] }) ∧
    NextTokens (fun (_ : Unit) (l : Lexer Unit) => Errorf l (str "bad")) (0 + 1) (0 + 1 + 2)
        (New (str "x") (some ())) =
      .ok ([] ++ [{ Typ := ILLEGAL, Literal := str "bad" }] ++
            List.replicate 2 { Typ := EOF, Literal := [] },
           { state := none, input := str "x", start := 0, pos := 0, width := 0,
             tokens := [] }) :=
  ⟨Errorf_then_EOF.1 Unit
    ({ New (str "a.") none with pos := 2, start := 1, tokens := [⟨word, str "a"⟩] } : Lexer Unit)
    (str "bad punctuation") (by decide),
   Errorf_then_EOF.2 Unit (fun (_ : Unit) (l : Lexer Unit) => Errorf l (str "bad")) ()
    (New (str "x") (some ())) (New (str "x") (some ())) (str "bad") 0 2 rfl rfl (by decide) rfl⟩

/-- Counterexample to `Errorf` always enqueueing: after `Next`, `Emit`, `Next`,
`Emit` on the input `"ab"` two tokens are queued, and `Errorf` then blocks on
its send instead of enqueueing a token and returning `nil`. -/
theorem Errorf_full_queue_blocks :
    ∃ l : Lexer Unit,
      (Next (New (str "ab") none) >>= fun x => Emit x.2 word >>= fun l1 =>
        Next l1 >>= fun y => Emit y.2 word) = .ok l ∧
      l.tokens.length = 2 ∧
      Errorf l (str "bad punctuation") = .error .blocked :=
  ⟨{ state := none, input := str "ab", start := 2, pos := 2, width := 1,
     tokens := [⟨word, str "a"⟩, ⟨word, str "b"⟩] }, by decide, by decide, by decide⟩

/-! ## Lookahead and single acceptance -/

theorem Peek_eof (l : Lexer σ) (h : (l.input.length : Int) ≤ l.pos) :
    Peek l = .ok (-1, { l with width := 0 }) := by
  unfold Peek
  rw [Next_eof l h]
  simp [Backup]

theorem Peek_decode (l : Lexer σ) (h0 : 0 ≤ l.pos) (h1 : l.pos < (l.input.length : Int)) :
    Peek l = .ok ((DecodeRuneInString (rest l)).1,
      { l with width := ((DecodeRuneInString (rest l)).2 : Int) }) := by
  unfold Peek
  rw [Next_decode l h0 h1]
  simp [Backup]

/-- C11: from a cursor with `0 ≤ pos`, `Peek` returns the code point that
`Next` returns from the same state and leaves `pos`, `start`, the input, the
state and the queue unchanged; a second `Peek` returns the same code point and
the same lexer as the first. -/
theorem Peek_same_as_Next (l : Lexer σ) (h0 : 0 ≤ l.pos) :
    ∃ (r : Int) (l1 l2 : Lexer σ), Next l = .ok (r, l1) ∧ Peek l = .ok (r, l2) ∧
      l2.pos = l.pos ∧ l2.start = l.start ∧ l2.input = l.input ∧ l2.state = l.state ∧
      l2.tokens = l.tokens ∧ Peek l2 = .ok (r, l2) := by
  by_cases hend : (l.input.length : Int) ≤ l.pos
  · refine ⟨_, _, _, Next_eof l hend, Peek_eof l hend, rfl, rfl, rfl, rfl, rfl, ?_⟩
    exact Peek_eof _ hend
  · have hlt : l.pos < (l.input.length : Int) := by omega
    refine ⟨_, _, _, Next_decode l h0 hlt, Peek_decode l h0 hlt, rfl, rfl, rfl, rfl, rfl, ?_⟩
    exact Peek_decode _ h0 hlt

/-- Instance: `Peek` on `New("©x", nil)`. -/
theorem Peek_same_as_Next_witness :
    ∃ (r : Int) (l1 l2 : Lexer Unit), Next (New (str "©x") none) = .ok (r, l1) ∧
      Peek (New (str "©x") none) = .ok (r, l2) ∧
      l2.pos = 0 ∧ l2.start = 0 ∧ l2.input = str "©x" ∧ l2.state = none ∧
      l2.tokens = [] ∧ Peek l2 = .ok (r, l2) :=
  Peek_same_as_Next (New (str "©x") none : Lexer Unit) (by decide)

/-- C12: from a cursor with `0 ≤ pos`: when a code point is left at `pos` and
it is one of the code points of `S`, `Accept(S)` returns `true` and advances
`pos` by the width of that code point; otherwise, also at the end of the
input, it returns `false` and leaves `pos`.  `start`, the input, the state and
the queue are unchanged in both cases. -/
theorem Accept_one (l : Lexer σ) (S : List Byte) (h0 : 0 ≤ l.pos) :
    ∃ (b : Bool) (l1 : Lexer σ), Accept l S = .ok (b, l1) ∧
      (b = true ↔ l.pos < (l.input.length : Int) ∧
        (DecodeRuneInString (l.input.drop l.pos.toNat)).1 ∈ codePoints S) ∧
      (b = true → l1.pos = l.pos + ((DecodeRuneInString (l.input.drop l.pos.toNat)).2 : Int) ∧
        1 ≤ (DecodeRuneInString (l.input.drop l.pos.toNat)).2) ∧
      (b = false → l1.pos = l.pos) ∧
      l1.start = l.start ∧ l1.input = l.input ∧ l1.state = l.state ∧
      l1.tokens = l.tokens := by
  by_cases hend : (l.input.length : Int) ≤ l.pos
  · refine ⟨false, { l with width := 0 }, ?_, ?_, ?_, fun _ => rfl, rfl, rfl, rfl, rfl⟩
    · unfold Accept
      rw [Next_eof l hend]
      simp [inSet_eof, Backup]
    · constructor
      · intro h; simp at h
      · intro h; omega
    · intro h; simp at h
  · have hlt : l.pos < (l.input.length : Int) := by omega
    have hw := decode_width (rest l) (rest_ne_nil l h0 hlt)
    by_cases hm : inSet S (DecodeRuneInString (rest l)).1 = true
    · refine ⟨true, { l with width := ((DecodeRuneInString (rest l)).2 : Int), pos := l.pos + ((DecodeRuneInString (rest l)).2 : Int) }, ?_, ?_,
        fun _ => ⟨rfl, hw.1⟩, fun h => by simp at h, rfl, rfl, rfl, rfl⟩
      · unfold Accept
        rw [Next_decode l h0 hlt]
        simp only [hm, if_true]
      · rw [inSet_iff_mem] at hm
        exact ⟨fun _ => ⟨hlt, hm⟩, fun _ => rfl⟩
    · refine ⟨false, { l with width := ((DecodeRuneInString (rest l)).2 : Int) }, ?_, ?_,
        fun h => by simp at h, fun _ => rfl, rfl, rfl, rfl, rfl⟩
      · unfold Accept
        rw [Next_decode l h0 hlt]
        simp [hm, Backup]
      · rw [inSet_iff_mem] at hm
        constructor
        · intro h; simp at h
        · intro h; exact absurd h.2 hm

/-- Instance: `Accept(":")` on `New(":x", nil)`. -/
theorem Accept_one_witness :
    ∃ (b : Bool) (l1 : Lexer Unit), Accept (New (str ":x") none) (str ":") = .ok (b, l1) ∧
      (b = true ↔ (0 : Int) < ((str ":x").length : Int) ∧
        (DecodeRuneInString ((str ":x").drop 0)).1 ∈ codePoints (str ":")) ∧
      l1.start = 0 := by
  obtain ⟨b, l1, h1, h2, _, _, h3, _⟩ :=
    Accept_one (New (str ":x") none : Lexer Unit) (str ":") (by decide)
  exact ⟨b, l1, h1, h2, h3⟩

/-- C15: `Backup` is not guarded.  On the input `"a"` the sequences `Next`,
`Backup`, `Backup` and `Next`, `Ignore`, `Backup` run without any fault and
end with `pos = -1 < 0`, respectively `pos = 0 < start = 1`. -/
theorem Backup_unguarded :
    (∃ (r : Int) (l1 : Lexer Unit), Next (New (str "a") none) = .ok (r, l1) ∧
      (Backup (Backup l1)).pos = -1 ∧ (Backup (Backup l1)).start = 0 ∧
      ¬ (0 ≤ (Backup (Backup l1)).pos)) ∧
    (∃ (r : Int) (l1 : Lexer Unit), Next (New (str "a") none) = .ok (r, l1) ∧
      (Backup (Ignore l1)).pos = 0 ∧ (Backup (Ignore l1)).start = 1 ∧
      ¬ ((Backup (Ignore l1)).start ≤ (Backup (Ignore l1)).pos)) := by
  refine ⟨⟨97, { New (str "a") none with pos := 1, width := 1 }, by decide, by decide,
    by decide, by decide⟩, ⟨97, { New (str "a") none with pos := 1, width := 1 }, by decide,
    by decide, by decide, by decide⟩⟩

/-- C16: `IsDigit(r)` holds exactly for `'0' ≤ r ≤ '9'`, `IsAlpha(r)` exactly
for the ASCII letters and the underscore; they never hold together, and none
of `IsDigit`, `IsAlpha`, `IsSpace` holds for the end-of-input value `-1` or for
`RuneError` (U+FFFD). -/
theorem classification (r : Int) :
    (IsDigit r = true ↔ 48 ≤ r ∧ r ≤ 57) ∧
    (IsAlpha r = true ↔ (97 ≤ r ∧ r ≤ 122) ∨ (65 ≤ r ∧ r ≤ 90) ∨ r = 95) ∧
    ¬ (IsDigit r = true ∧ IsAlpha r = true) ∧
    IsDigit (-1) = false ∧ IsAlpha (-1) = false ∧ IsSpace (-1) = false ∧
    IsDigit RuneError = false ∧ IsAlpha RuneError = false ∧ IsSpace RuneError = false ∧
    RuneError = 0xFFFD := by
  have hd : IsDigit r = true ↔ 48 ≤ r ∧ r ≤ 57 := by
    simp [IsDigit]
  have ha : IsAlpha r = true ↔ (97 ≤ r ∧ r ≤ 122) ∨ (65 ≤ r ∧ r ≤ 90) ∨ r = 95 := by
    simp [IsAlpha, or_assoc]
  refine ⟨hd, ha, ?_, by decide, by decide, by decide, by decide, by decide, by decide, rfl⟩
  rintro ⟨h1, h2⟩
  rw [hd] at h1
  rw [ha] at h2
  omega

/-! ## Skipping white space -/

theorem IsSpace_eof : IsSpace (-1) = false := by decide

theorem runes_width_sum (s : List Byte) : ((runes s).map (fun d => d.2)).sum = s.length := by
  induction s using decode_induction with
  | hnil => simp [runes_nil]
  | hstep b0 t ih =>
    have hw := decode_width (b0 :: t) (List.cons_ne_nil _ _)
    rw [runes_cons _ (List.cons_ne_nil _ _), List.map_cons, List.sum_cons, ih, List.length_drop]
    omega

/-- Where a run ends, the input is exhausted or the next code point fails the
test. -/
theorem runWidth_stop (p : Int → Bool) (s : List Byte) :
    s.drop (runWidth p s) = [] ∨ p (DecodeRuneInString (s.drop (runWidth p s))).1 = false := by
  by_cases hnil : s.drop (runWidth p s) = []
  · exact Or.inl hnil
  · right
    have h0 := runWidth_drop p s.length s (le_refl _)
    have hw := decode_width _ hnil
    rw [runWidth_cons p _ hnil] at h0
    by_cases hp : p (DecodeRuneInString (s.drop (runWidth p s))).1 = true
    · rw [if_pos hp] at h0
      omega
    · simpa using hp

theorem runWidth_all (p : Int → Bool) (s : List Byte)
    (h : ∀ d ∈ runes s, p d.1 = true) : runWidth p s = s.length := by
  unfold runWidth
  rw [List.takeWhile_eq_self_iff.mpr (fun d hd => h d hd), runes_width_sum]

theorem runWidth_pos_iff (p : Int → Bool) (s : List Byte) (hs : s ≠ []) :
    0 < runWidth p s ↔ p (DecodeRuneInString s).1 = true := by
  have hw := decode_width s hs
  rw [runWidth_cons p s hs]
  by_cases hp : p (DecodeRuneInString s).1 = true
  · rw [if_pos hp]
    simp only [hp, iff_true]
    omega
  · rw [if_neg hp]
    simp [hp]

theorem ignoreWhile_run :
    ∀ (fuel : Nat) (l : Lexer σ), 0 ≤ l.pos → l.pos ≤ (l.input.length : Int) →
      (l.input.length : Int) - l.pos < fuel →
      ignoreWhile fuel l = .ok
        { l with
          pos := l.pos + (runWidth IsSpace (rest l) : Int) +
            ((DecodeRuneInString ((rest l).drop (runWidth IsSpace (rest l)))).2 : Int),
          width := ((DecodeRuneInString ((rest l).drop (runWidth IsSpace (rest l)))).2 : Int),
          start := if runWidth IsSpace (rest l) = 0 then l.start
                   else l.pos + (runWidth IsSpace (rest l) : Int) } := by
  intro fuel
  induction fuel with
  | zero => intro l h0 h1 hf; omega
  | succ n ih =>
    intro l h0 h1 hf
    by_cases hend : (l.input.length : Int) ≤ l.pos
    · have hr := rest_eq_nil l hend
      simp only [ignoreWhile, Next_eof l hend, IsSpace_eof, hr, runWidth_nil, List.drop_nil,
        decode_nil]
      simp
    · have hlt : l.pos < (l.input.length : Int) := by omega
      have hne := rest_ne_nil l h0 hlt
      have hw := decode_width (rest l) hne
      have hlen : (rest l).length = l.input.length - l.pos.toNat := by
        simp [rest]
      simp only [ignoreWhile, Next_decode l h0 hlt]
      by_cases hpr : IsSpace (DecodeRuneInString (rest l)).1 = true
      · rw [if_pos hpr]
        have hrest : ∀ (w : Nat) (st : Int),
            rest ({ l with width := (w : Int), pos := l.pos + (w : Int), start := st } : Lexer σ) =
              (rest l).drop w := by
          intro w st
          simp only [rest, List.drop_drop]
          congr 1
          omega
        simp only [Ignore]
        rw [ih _ (by simp only; omega) (by simp only; omega) (by simp only; omega)]
        rw [hrest, runWidth_cons IsSpace (rest l) hne, if_pos hpr, List.drop_drop]
        simp only [Nat.cast_add, add_comm (runWidth IsSpace _) _]
        congr 2
        all_goals omega
      · rw [if_neg hpr, runWidth_cons IsSpace (rest l) hne, if_neg hpr]
        simp

theorem IgnoreWhitespace_run (fuel : Nat) (l : Lexer σ) (h0 : 0 ≤ l.pos)
    (h1 : l.pos ≤ (l.input.length : Int)) (hf : (l.input.length : Int) - l.pos < fuel) :
    IgnoreWhitespace fuel l = .ok
      { l with
        pos := l.pos + (runWidth IsSpace (rest l) : Int),
        width := ((DecodeRuneInString ((rest l).drop (runWidth IsSpace (rest l)))).2 : Int),
        start := if runWidth IsSpace (rest l) = 0 then l.start
                 else l.pos + (runWidth IsSpace (rest l) : Int) } := by
  unfold IgnoreWhitespace
  rw [ignoreWhile_run fuel l h0 h1 hf]
  simp [Backup]

/-- C13: from a cursor with `0 ≤ pos ≤ len(input)`, `IgnoreWhitespace` returns
(with any budget above `len(input) - pos`) and leaves `pos` behind the longest
prefix of the code points of `input[pos:]` that all satisfy `IsSpace`: there
the input ends or the code point decoded does not satisfy `IsSpace`, and when
all remaining code points are white space `pos` is `len(input)`. -/
theorem IgnoreWhitespace_stops (l : Lexer σ) (fuel : Nat) (h0 : 0 ≤ l.pos)
    (h1 : l.pos ≤ (l.input.length : Int)) (hf : (l.input.length : Int) - l.pos < fuel) :
    ∃ l1 : Lexer σ, IgnoreWhitespace fuel l = .ok l1 ∧
      l1.pos = l.pos +
        ((((runes (l.input.drop l.pos.toNat)).takeWhile (fun d => IsSpace d.1)).map
          (fun d => d.2)).sum : Nat) ∧
      (∀ d ∈ (runes (l.input.drop l.pos.toNat)).takeWhile (fun d => IsSpace d.1),
        IsSpace d.1 = true) ∧
      l.pos ≤ l1.pos ∧ l1.pos ≤ (l.input.length : Int) ∧
      (l1.pos = (l.input.length : Int) ∨
        IsSpace (DecodeRuneInString (l.input.drop l1.pos.toNat)).1 = false) ∧
      ((∀ d ∈ runes (l.input.drop l.pos.toNat), IsSpace d.1 = true) →
        l1.pos = (l.input.length : Int)) ∧
      l1.input = l.input := by
  have hle := runWidth_le IsSpace (rest l).length (rest l) (le_refl _)
  have hlen : (rest l).length = l.input.length - l.pos.toNat := by simp [rest]
  refine ⟨_, IgnoreWhitespace_run fuel l h0 h1 hf, rfl, ?_, ?_, ?_, ?_, ?_, rfl⟩
  · intro d hd
    exact List.mem_takeWhile_imp (p := fun d : Int × Nat => IsSpace d.1) hd
  · show l.pos ≤ l.pos + (runWidth IsSpace (rest l) : Int)
    omega
  · show l.pos + (runWidth IsSpace (rest l) : Int) ≤ (l.input.length : Int)
    omega
  · show l.pos + (runWidth IsSpace (rest l) : Int) = (l.input.length : Int) ∨
      IsSpace (DecodeRuneInString
        (l.input.drop (l.pos + (runWidth IsSpace (rest l) : Int)).toNat)).1 = false
    have hdrop : l.input.drop (l.pos + (runWidth IsSpace (rest l) : Int)).toNat =
        (rest l).drop (runWidth IsSpace (rest l)) := by
      simp only [rest, List.drop_drop]
      congr 1
      omega
    rw [hdrop]
    rcases runWidth_stop IsSpace (rest l) with h | h
    · left
      have := congrArg List.length h
      rw [List.length_drop, List.length_nil] at this
      omega
    · exact Or.inr h
  · intro hall
    show l.pos + (runWidth IsSpace (rest l) : Int) = (l.input.length : Int)
    rw [runWidth_all IsSpace (rest l) hall]
    omega

/-- Instance: `IgnoreWhitespace` on `New(" \t x", nil)` stops before `x`. -/
theorem IgnoreWhitespace_stops_witness :
    ∃ l1 : Lexer Unit, IgnoreWhitespace 5 (New [32, 9, 32, 120] none) = .ok l1 ∧
      l1.pos = 3 ∧ l1.input.drop l1.pos.toNat = str "x" := by
  obtain ⟨l1, h1, h2, _, _, _, _, _, h3⟩ :=
    IgnoreWhitespace_stops (New [32, 9, 32, 120] none : Lexer Unit) 5 (by decide) (by decide)
      (by decide)
  have hp : l1.pos = 3 := by
    rw [h2]
    decide
  refine ⟨l1, h1, hp, ?_⟩
  rw [h3, hp]
  decide

/-- C20: from a cursor with `0 ≤ start ≤ pos ≤ len(input)`: when the input is
exhausted or the code point at `pos` is not white space, `IgnoreWhitespace`
leaves `start` and `pos`, so the pending text `input[start:pos]` stays; when
the code point at `pos` is white space, it ends with `start = pos` beyond the
old `pos`, so the pending text is empty, whatever was consumed before. -/
theorem IgnoreWhitespace_frame (l : Lexer σ) (fuel : Nat) (hs : 0 ≤ l.start)
    (h0 : l.start ≤ l.pos) (h1 : l.pos ≤ (l.input.length : Int))
    (hf : (l.input.length : Int) - l.pos < fuel) :
    ∃ l1 : Lexer σ, IgnoreWhitespace fuel l = .ok l1 ∧
      (((l.input.length : Int) ≤ l.pos ∨
          IsSpace (DecodeRuneInString (l.input.drop l.pos.toNat)).1 = false) →
        l1.start = l.start ∧ l1.pos = l.pos ∧ CurrentInput l1 = CurrentInput l) ∧
      ((l.pos < (l.input.length : Int) ∧
          IsSpace (DecodeRuneInString (l.input.drop l.pos.toNat)).1 = true) →
        l1.start = l1.pos ∧ l.pos < l1.pos ∧ CurrentInput l1 = .ok []) ∧
      l1.input = l.input ∧ l1.state = l.state ∧ l1.tokens = l.tokens := by
  have hle := runWidth_le IsSpace (rest l).length (rest l) (le_refl _)
  have hlen : (rest l).length = l.input.length - l.pos.toNat := by simp [rest]
  refine ⟨_, IgnoreWhitespace_run fuel l (by omega) h1 hf, ?_, ?_, rfl, rfl, rfl⟩
  · intro h
    have hz : runWidth IsSpace (rest l) = 0 := by
      rcases h with h | h
      · rw [rest_eq_nil l h, runWidth_nil]
      · by_cases hend : (l.input.length : Int) ≤ l.pos
        · rw [rest_eq_nil l hend, runWidth_nil]
        · have hne := rest_ne_nil l (by omega) (by omega)
          rw [runWidth_cons IsSpace (rest l) hne, if_neg (by simpa [rest] using h)]
    simp only [hz, if_true, Nat.cast_zero, add_zero, CurrentInput]
    exact ⟨trivial, trivial, trivial⟩
  · rintro ⟨hlt, h⟩
    have hne := rest_ne_nil l (by omega) hlt
    have hpos : 0 < runWidth IsSpace (rest l) :=
      (runWidth_pos_iff IsSpace (rest l) hne).mpr h
    have hnz : runWidth IsSpace (rest l) ≠ 0 := by omega
    simp only [hnz, if_false, CurrentInput]
    refine ⟨trivial, by omega, ?_⟩
    rw [slice_in_range _ _ _ (by omega) (le_refl _) (by omega)]
    simp

/-- Instance: on `"ab c"`, after two `Next` calls have consumed `ab`
(`start = 0`, `pos = 2`), `IgnoreWhitespace` ends with `start = pos = 3`. -/
theorem IgnoreWhitespace_frame_witness :
    ∃ l1 : Lexer Unit,
      IgnoreWhitespace 3 { New (str "ab c") none with pos := 2, width := 1 } = .ok l1 ∧
      CurrentInput ({ New (str "ab c") none with pos := 2, width := 1 } : Lexer Unit) =
        .ok (str "ab") ∧
      l1.start = l1.pos ∧ (2 : Int) < l1.pos ∧ CurrentInput l1 = .ok [] := by
  obtain ⟨l1, h1, _, h2, _⟩ :=
    IgnoreWhitespace_frame ({ New (str "ab c") none with pos := 2, width := 1 } : Lexer Unit) 3
      (by decide) (by decide) (by decide) (by decide)
  obtain ⟨h3, h4, h5⟩ := h2 ⟨by decide, by decide⟩
  exact ⟨l1, h1, by decide, h3, h4, h5⟩

/-! ## The classifying loops and `AcceptRun` -/

theorem codePoints_digitSet : codePoints digitSet = [48, 49, 50, 51, 52, 53, 54, 55, 56, 57] := by
  decide

theorem codePoints_alphaSet : codePoints alphaSet =
    [97, 98, 99, 100, 101, 102, 103, 104, 105, 106, 107, 108, 109, 110, 111, 112, 113, 114,
     115, 116, 117, 118, 119, 120, 121, 122, 65, 66, 67, 68, 69, 70, 71, 72, 73, 74, 75, 76,
     77, 78, 79, 80, 81, 82, 83, 84, 85, 86, 87, 88, 89, 90, 95] := by
  decide

theorem inSet_digitSet : inSet digitSet = IsDigit := by
  funext r
  rw [Bool.eq_iff_iff, inSet_iff_mem, codePoints_digitSet]
  simp only [IsDigit, List.mem_cons, List.mem_singleton, List.mem_nil_iff, Bool.and_eq_true,
    decide_eq_true_eq, or_false]
  constructor <;> intro h <;> omega

theorem inSet_alphaSet : inSet alphaSet = IsAlpha := by
  funext r
  rw [Bool.eq_iff_iff, inSet_iff_mem, codePoints_alphaSet]
  simp only [IsAlpha, List.mem_cons, List.mem_singleton, List.mem_nil_iff, Bool.and_eq_true,
    Bool.or_eq_true, decide_eq_true_eq, or_false]
  constructor <;> intro h <;> omega

theorem IsAlpha_eof : IsAlpha (-1) = false := by decide

theorem IsDigit_eof : IsDigit (-1) = false := by decide

/-- C17: `AcceptDigits` and `AcceptRun("0123456789")` have the same outcome
from every lexer and with every budget, and so have `AcceptAlpha` and
`AcceptRun` of the 52 ASCII letters and `_`; from a cursor with
`0 ≤ pos ≤ len(input)` both return, with the same lexer (`pos`, `width`,
`start` and all other fields). -/
theorem AcceptDigits_AcceptAlpha_as_AcceptRun (l : Lexer σ) (fuel : Nat) (h0 : 0 ≤ l.pos)
    (h1 : l.pos ≤ (l.input.length : Int)) (hf : (l.input.length : Int) - l.pos < fuel) :
    (∃ l1 : Lexer σ, AcceptDigits fuel l = .ok l1 ∧
      AcceptRun fuel l (str "0123456789") = .ok l1) ∧
    (∃ l1 : Lexer σ, AcceptAlpha fuel l = .ok l1 ∧
      AcceptRun fuel l (str "abcdefghijklmnopqrstuvwxyzABCDEFGHIJKLMNOPQRSTUVWXYZ_") = .ok l1) ∧
    (∀ (k : Nat) (l0 : Lexer σ), AcceptDigits k l0 = AcceptRun k l0 (str "0123456789")) ∧
    (∀ (k : Nat) (l0 : Lexer σ), AcceptAlpha k l0 =
      AcceptRun k l0 (str "abcdefghijklmnopqrstuvwxyzABCDEFGHIJKLMNOPQRSTUVWXYZ_")) := by
  have hd : ∀ (k : Nat) (l0 : Lexer σ), AcceptDigits k l0 = AcceptRun k l0 digitSet := by
    intro k l0
    unfold AcceptDigits AcceptRun
    rw [inSet_digitSet]
  have ha : ∀ (k : Nat) (l0 : Lexer σ), AcceptAlpha k l0 = AcceptRun k l0 alphaSet := by
    intro k l0
    unfold AcceptAlpha AcceptRun
    rw [inSet_alphaSet]
  refine ⟨⟨_, ?_, AcceptRun_run digitSet fuel l h0 h1 hf⟩,
    ⟨_, ?_, AcceptRun_run alphaSet fuel l h0 h1 hf⟩, hd, ha⟩
  · rw [hd, AcceptRun_run digitSet fuel l h0 h1 hf]
  · rw [ha, AcceptRun_run alphaSet fuel l h0 h1 hf]

/-- Instance: both digit loops on `"1234567890abc."` at offset 0. -/
theorem AcceptDigits_AcceptAlpha_as_AcceptRun_witness :
    ∃ l1 : Lexer Unit, AcceptDigits 15 (New (str "1234567890abc.") none) = .ok l1 ∧
      AcceptRun 15 (New (str "1234567890abc.") none) (str "0123456789") = .ok l1 :=
  (AcceptDigits_AcceptAlpha_as_AcceptRun (New (str "1234567890abc.") none : Lexer Unit) 15
    (by decide) (by decide) (by decide)).1

/-- A call of `Next` that returns a code point accepted by a test rejecting
`-1` has advanced `pos` by at least one byte, within the input. -/
theorem Next_progress (p : Int → Bool) (hp : p (-1) = false) (l l1 : Lexer σ) (r : Int)
    (h0 : 0 ≤ l.pos) (hN : Next l = .ok (r, l1)) (hr : p r = true) :
    l.pos + 1 ≤ l1.pos ∧ l1.pos ≤ (l.input.length : Int) := by
  by_cases hend : (l.input.length : Int) ≤ l.pos
  · rw [Next_eof l hend] at hN
    simp only [Except.ok.injEq, Prod.mk.injEq] at hN
    rw [← hN.1, hp] at hr
    exact absurd hr (by decide)
  · have hlt : l.pos < (l.input.length : Int) := by omega
    have hw := decode_width (rest l) (rest_ne_nil l h0 hlt)
    have hlen : (rest l).length = l.input.length - l.pos.toNat := by simp [rest]
    rw [Next_decode l h0 hlt] at hN
    simp only [Except.ok.injEq, Prod.mk.injEq] at hN
    rw [← hN.2]
    constructor
    · show l.pos + 1 ≤ l.pos + ((DecodeRuneInString (rest l)).2 : Int)
      omega
    · show l.pos + ((DecodeRuneInString (rest l)).2 : Int) ≤ (l.input.length : Int)
      omega

/-- C18: from a cursor with `0 ≤ pos ≤ len(input)` the loops of `AcceptRun(S)`,
`AcceptAlpha`, `AcceptDigits` and `IgnoreWhitespace` stop within
`len(input) - pos + 1` calls of `Next` (the budget counts these calls): a call
whose result lets a loop continue advances `pos` by at least one byte, and at
the end of the input `Next` returns `-1`, which no set contains and none of
`IsAlpha`, `IsDigit`, `IsSpace` accepts. -/
theorem loops_terminate (l : Lexer σ) (S : List Byte) (h0 : 0 ≤ l.pos)
    (h1 : l.pos ≤ (l.input.length : Int)) :
    (∃ l1 : Lexer σ, nextWhile (inSet S) (((l.input.length : Int) - l.pos).toNat + 1) l =
      .ok l1) ∧
    (∃ l1 : Lexer σ, nextWhile IsAlpha (((l.input.length : Int) - l.pos).toNat + 1) l =
      .ok l1) ∧
    (∃ l1 : Lexer σ, nextWhile IsDigit (((l.input.length : Int) - l.pos).toNat + 1) l =
      .ok l1) ∧
    (∃ l1 : Lexer σ, ignoreWhile (((l.input.length : Int) - l.pos).toNat + 1) l = .ok l1) ∧
    (∀ (r : Int) (l1 : Lexer σ), Next l = .ok (r, l1) →
      inSet S r = true ∨ IsAlpha r = true ∨ IsDigit r = true ∨ IsSpace r = true →
      l.pos + 1 ≤ l1.pos ∧ l1.pos ≤ (l.input.length : Int)) ∧
    ((l.input.length : Int) ≤ l.pos → ∃ l1 : Lexer σ, Next l = .ok (-1, l1)) ∧
    inSet S (-1) = false ∧ IsAlpha (-1) = false ∧ IsDigit (-1) = false ∧
    IsSpace (-1) = false := by
  have hf : (l.input.length : Int) - l.pos <
      ((((l.input.length : Int) - l.pos).toNat + 1 : Nat) : Int) := by omega
  refine ⟨⟨_, nextWhile_run (inSet S) (inSet_eof S) _ l h0 h1 hf⟩,
    ⟨_, nextWhile_run IsAlpha IsAlpha_eof _ l h0 h1 hf⟩,
    ⟨_, nextWhile_run IsDigit IsDigit_eof _ l h0 h1 hf⟩,
    ⟨_, ignoreWhile_run _ l h0 h1 hf⟩, ?_, fun h => ⟨_, Next_eof l h⟩,
    inSet_eof S, IsAlpha_eof, IsDigit_eof, IsSpace_eof⟩
  intro r l1 hN hr
  rcases hr with hr | hr | hr | hr
  · exact Next_progress (inSet S) (inSet_eof S) l l1 r h0 hN hr
  · exact Next_progress IsAlpha IsAlpha_eof l l1 r h0 hN hr
  · exact Next_progress IsDigit IsDigit_eof l l1 r h0 hN hr
  · exact Next_progress IsSpace IsSpace_eof l l1 r h0 hN hr

/-- Instance: the loops on `New("ab", nil)` stop within three calls of `Next`. -/
theorem loops_terminate_witness :
    ∃ l1 : Lexer Unit, nextWhile (inSet (str "ab"))
      ((((str "ab").length : Int) - 0).toNat + 1) (New (str "ab") none) = .ok l1 :=
  (loops_terminate (New (str "ab") none : Lexer Unit) (str "ab") (by decide) (by decide)).1

/-! ## The cursor invariant -/

theorem Inv_New (input : List Byte) (s : Option σ) : Inv (New input s) := by
  simp [Inv, New]

/-- After `Next` the invariant holds and `Backup` would restore the old `pos`. -/
theorem Next_inv (l l1 : Lexer σ) (r : Int) (hi : Inv l) (hN : Next l = .ok (r, l1)) :
    Inv l1 ∧ 0 ≤ l1.width ∧ l1.pos - l1.width = l.pos ∧ l1.start = l.start ∧
      l1.input = l.input := by
  obtain ⟨h0, h1, h2⟩ := hi
  by_cases hend : (l.input.length : Int) ≤ l.pos
  · rw [Next_eof l hend] at hN
    simp only [Except.ok.injEq, Prod.mk.injEq] at hN
    rw [← hN.2]
    exact ⟨⟨h0, h1, h2⟩, le_refl _, by simp, rfl, rfl⟩
  · have hlt : l.pos < (l.input.length : Int) := by omega
    have hw := decode_width (rest l) (rest_ne_nil l (by omega) hlt)
    have hlen : (rest l).length = l.input.length - l.pos.toNat := by simp [rest]
    rw [Next_decode l (by omega) hlt] at hN
    simp only [Except.ok.injEq, Prod.mk.injEq] at hN
    rw [← hN.2]
    refine ⟨⟨h0, ?_, ?_⟩, ?_, ?_, rfl, rfl⟩
    · show l.start ≤ l.pos + ((DecodeRuneInString (rest l)).2 : Int)
      omega
    · show l.pos + ((DecodeRuneInString (rest l)).2 : Int) ≤ (l.input.length : Int)
      omega
    · show (0 : Int) ≤ ((DecodeRuneInString (rest l)).2 : Int)
      omega
    · show l.pos + ((DecodeRuneInString (rest l)).2 : Int) -
        ((DecodeRuneInString (rest l)).2 : Int) = l.pos
      omega

theorem Backup_inv (l : Lexer σ) (hi : Inv l) (hw : 0 ≤ l.width)
    (hs : l.start ≤ l.pos - l.width) : Inv (Backup l) := by
  obtain ⟨h0, h1, h2⟩ := hi
  refine ⟨h0, ?_, ?_⟩
  · show l.start ≤ l.pos - l.width
    exact hs
  · show l.pos - l.width ≤ (l.input.length : Int)
    omega

theorem Backup_Next_inv (l l1 : Lexer σ) (r : Int) (hi : Inv l) (hN : Next l = .ok (r, l1)) :
    Inv (Backup l1) := by
  obtain ⟨h1, h2, h3, h4, _⟩ := Next_inv l l1 r hi hN
  exact Backup_inv l1 h1 h2 (by rw [h3, h4]; exact hi.2.1)

theorem Peek_inv (l l1 : Lexer σ) (r : Int) (hi : Inv l) (hP : Peek l = .ok (r, l1)) :
    Inv l1 := by
  unfold Peek at hP
  cases hN : Next l with
  | error e => simp [hN] at hP
  | ok x =>
    obtain ⟨r1, l2⟩ := x
    simp only [hN, Except.ok.injEq, Prod.mk.injEq] at hP
    rw [← hP.2]
    exact Backup_Next_inv l l2 r1 hi hN

theorem Ignore_inv (l : Lexer σ) (hi : Inv l) : Inv (Ignore l) := by
  obtain ⟨h0, h1, h2⟩ := hi
  exact ⟨by show 0 ≤ l.pos; omega, le_refl _, h2⟩

theorem Accept_inv (l l1 : Lexer σ) (valid : List Byte) (ok : Bool) (hi : Inv l)
    (hA : Accept l valid = .ok (ok, l1)) :
    Inv l1 ∧ (ok = true → 0 ≤ l1.width ∧ l1.start ≤ l1.pos - l1.width) := by
  unfold Accept at hA
  cases hN : Next l with
  | error e => simp [hN] at hA
  | ok x =>
    obtain ⟨r1, l2⟩ := x
    simp only [hN] at hA
    obtain ⟨h1, h2, h3, h4, _⟩ := Next_inv l l2 r1 hi hN
    by_cases hm : inSet valid r1 = true
    · rw [if_pos hm] at hA
      simp only [Except.ok.injEq, Prod.mk.injEq] at hA
      rw [← hA.2]
      exact ⟨h1, fun _ => ⟨h2, by rw [h3, h4]; exact hi.2.1⟩⟩
    · rw [if_neg hm] at hA
      simp only [Except.ok.injEq, Prod.mk.injEq] at hA
      rw [← hA.2, ← hA.1]
      exact ⟨Backup_Next_inv l l2 r1 hi hN, fun h => by simp at h⟩

/-- The loops `for p(l.Next()) {}` followed by `Backup` keep the invariant,
whatever the budget with which they return. -/
theorem nextWhile_Backup_inv (p : Int → Bool) (hp : p (-1) = false) (fuel : Nat)
    (l l1 : Lexer σ) (hi : Inv l) (h : nextWhile p fuel l = .ok l1) : Inv (Backup l1) := by
  obtain ⟨h0, h1, h2⟩ := hi
  have hne : nextWhile p fuel l ≠ .error .fuel := by
    rw [h]
    exact fun hc => Except.noConfusion hc
  have hbig := nextWhile_mono p fuel l hne (fuel + (l.input.length + 1)) (by omega)
  rw [nextWhile_run p hp _ l (by omega) h2 (by push_cast; omega), h] at hbig
  have hle := runWidth_le p (rest l).length (rest l) (le_refl _)
  have hlen : (rest l).length = l.input.length - l.pos.toNat := by simp [rest]
  simp only [Except.ok.injEq] at hbig
  rw [← hbig]
  refine ⟨h0, ?_, ?_⟩ <;> simp only [Backup] <;> omega

theorem AcceptRun_inv (fuel : Nat) (l l1 : Lexer σ) (valid : List Byte) (hi : Inv l)
    (h : AcceptRun fuel l valid = .ok l1) : Inv l1 := by
  unfold AcceptRun at h
  cases hL : nextWhile (inSet valid) fuel l with
  | error e => simp [hL] at h
  | ok l2 =>
    simp only [hL, Except.ok.injEq] at h
    rw [← h]
    exact nextWhile_Backup_inv (inSet valid) (inSet_eof valid) fuel l l2 hi hL

theorem AcceptAlpha_inv (fuel : Nat) (l l1 : Lexer σ) (hi : Inv l)
    (h : AcceptAlpha fuel l = .ok l1) : Inv l1 := by
  unfold AcceptAlpha at h
  cases hL : nextWhile IsAlpha fuel l with
  | error e => simp [hL] at h
  | ok l2 =>
    simp only [hL, Except.ok.injEq] at h
    rw [← h]
    exact nextWhile_Backup_inv IsAlpha IsAlpha_eof fuel l l2 hi hL

theorem AcceptDigits_inv (fuel : Nat) (l l1 : Lexer σ) (hi : Inv l)
    (h : AcceptDigits fuel l = .ok l1) : Inv l1 := by
  unfold AcceptDigits at h
  cases hL : nextWhile IsDigit fuel l with
  | error e => simp [hL] at h
  | ok l2 =>
    simp only [hL, Except.ok.injEq] at h
    rw [← h]
    exact nextWhile_Backup_inv IsDigit IsDigit_eof fuel l l2 hi hL

theorem IgnoreWhitespace_inv (fuel : Nat) (l l1 : Lexer σ) (hi : Inv l)
    (h : IgnoreWhitespace fuel l = .ok l1) : Inv l1 := by
  obtain ⟨h0, h1, h2⟩ := hi
  have hne : IgnoreWhitespace fuel l ≠ .error .fuel := by
    rw [h]
    exact fun hc => Except.noConfusion hc
  have hbig := IgnoreWhitespace_mono fuel (fuel + (l.input.length + 1)) (by omega) l hne
  rw [IgnoreWhitespace_run _ l (by omega) h2 (by push_cast; omega), h] at hbig
  have hle := runWidth_le IsSpace (rest l).length (rest l) (le_refl _)
  have hlen : (rest l).length = l.input.length - l.pos.toNat := by simp [rest]
  simp only [Except.ok.injEq] at hbig
  rw [← hbig]
  refine ⟨?_, ?_, ?_⟩
  · show 0 ≤ (if runWidth IsSpace (rest l) = 0 then l.start
      else l.pos + (runWidth IsSpace (rest l) : Int))
    split_ifs <;> omega
  · show (if runWidth IsSpace (rest l) = 0 then l.start
      else l.pos + (runWidth IsSpace (rest l) : Int)) ≤ l.pos + (runWidth IsSpace (rest l) : Int)
    split_ifs <;> omega
  · show l.pos + (runWidth IsSpace (rest l) : Int) ≤ (l.input.length : Int)
    omega

theorem AcceptSequence_inv (l l1 : Lexer σ) (sequence : List Byte) (ok : Bool) (hi : Inv l)
    (hfit : l.pos + (sequence.length : Int) ≤ (l.input.length : Int))
    (h : AcceptSequence l sequence = .ok (ok, l1)) :
    Inv l1 ∧ l1.start = l.start ∧ l1.width = l.width ∧ l.pos ≤ l1.pos := by
  obtain ⟨h0, h1, h2⟩ := hi
  rw [AcceptSequence_in_range l sequence (by omega) hfit] at h
  by_cases hm : (rest l).take sequence.length = sequence
  · rw [if_pos hm] at h
    simp only [Except.ok.injEq, Prod.mk.injEq] at h
    rw [← h.2]
    refine ⟨⟨h0, ?_, hfit⟩, rfl, rfl, ?_⟩
    · show l.start ≤ l.pos + (sequence.length : Int)
      omega
    · show l.pos ≤ l.pos + (sequence.length : Int)
      omega
  · rw [if_neg hm] at h
    simp only [Except.ok.injEq, Prod.mk.injEq] at h
    rw [← h.2]
    exact ⟨⟨h0, h1, h2⟩, rfl, rfl, le_refl _⟩

theorem send_fields (l l1 : Lexer σ) (t : Token) (h : send l t = .ok l1) :
    l1.start = l.start ∧ l1.pos = l.pos ∧ l1.input = l.input ∧ l1.width = l.width ∧
      l1.state = l.state ∧ l1.tokens = l.tokens ++ [t] ∧ l.tokens.length < 2 := by
  unfold send at h
  by_cases hc : l.tokens.length < tokensCap
  · rw [if_pos hc] at h
    simp only [Except.ok.injEq] at h
    rw [← h]
    exact ⟨rfl, rfl, rfl, rfl, rfl, rfl, hc⟩
  · rw [if_neg hc] at h
    exact Except.noConfusion h

theorem Emit_inv (l l1 : Lexer σ) (tokenType : TokenType) (hi : Inv l)
    (h : Emit l tokenType = .ok l1) : Inv l1 := by
  obtain ⟨h0, h1, h2⟩ := hi
  unfold Emit at h
  cases hC : CurrentInput l with
  | error e => simp [hC] at h
  | ok lit =>
    simp only [hC] at h
    cases hS : send l { Typ := tokenType, Literal := lit } with
    | error e => simp [hS] at h
    | ok l2 =>
      simp only [hS, Except.ok.injEq] at h
      obtain ⟨_, k2, k3, _⟩ := send_fields l l2 _ hS
      rw [← h]
      refine ⟨?_, le_refl _, ?_⟩
      · show 0 ≤ l2.pos
        omega
      · show l2.pos ≤ (l2.input.length : Int)
        rw [k2, k3]
        exact h2

theorem Errorf_inv (l l1 : Lexer σ) (msg : List Byte) (s : Option σ) (hi : Inv l)
    (h : Errorf l msg = .ok (s, l1)) :
    Inv l1 ∧ l1.start = l.start ∧ l1.pos = l.pos ∧ l1.width = l.width := by
  unfold Errorf at h
  cases hS : send l { Typ := ILLEGAL, Literal := msg } with
  | error e => simp [hS] at h
  | ok l2 =>
    simp only [hS, Except.ok.injEq, Prod.mk.injEq] at h
    obtain ⟨k1, k2, k3, k4, _⟩ := send_fields l l2 _ hS
    rw [← h.2]
    refine ⟨?_, k1, k2, k4⟩
    unfold Inv
    rw [k1, k2, k3]
    exact hi

/-- Along a contract-respecting run the invariant holds, and while `Backup` is
allowed it would not move `pos` below `start`. -/
theorem Reach.good {b : Bool} {l : Lexer σ} (h : Reach b l) :
    Inv l ∧ (b = true → 0 ≤ l.width ∧ l.start ≤ l.pos - l.width) := by
  induction h with
  | new input s => exact ⟨Inv_New input s, fun h => by simp at h⟩
  | next _ hN ih =>
    obtain ⟨h1, h2, h3, h4, _⟩ := Next_inv _ _ _ ih.1 hN
    exact ⟨h1, fun _ => ⟨h2, by rw [h3, h4]; exact ih.1.2.1⟩⟩
  | backup _ ih =>
    obtain ⟨hw, hs⟩ := ih.2 rfl
    exact ⟨Backup_inv _ ih.1 hw hs, fun h => by simp at h⟩
  | peek _ hP ih => exact ⟨Peek_inv _ _ _ ih.1 hP, fun h => by simp at h⟩
  | ignore _ ih => exact ⟨Ignore_inv _ ih.1, fun h => by simp at h⟩
  | ignoreWhitespace _ hW ih =>
    exact ⟨IgnoreWhitespace_inv _ _ _ ih.1 hW, fun h => by simp at h⟩
  | accept _ hA ih => exact Accept_inv _ _ _ _ ih.1 hA
  | acceptRun _ hA ih => exact ⟨AcceptRun_inv _ _ _ _ ih.1 hA, fun h => by simp at h⟩
  | acceptAlpha _ hA ih => exact ⟨AcceptAlpha_inv _ _ _ ih.1 hA, fun h => by simp at h⟩
  | acceptDigits _ hA ih => exact ⟨AcceptDigits_inv _ _ _ ih.1 hA, fun h => by simp at h⟩
  | acceptSequence _ hfit hA ih =>
    obtain ⟨h1, h2, h3, h4⟩ := AcceptSequence_inv _ _ _ _ ih.1 hfit hA
    refine ⟨h1, fun hb => ?_⟩
    obtain ⟨hw, hs⟩ := ih.2 hb
    rw [h2, h3]
    exact ⟨hw, by omega⟩
  | emit _ hE ih => exact ⟨Emit_inv _ _ _ ih.1 hE, fun h => by simp at h⟩
  | errorf _ hE ih =>
    obtain ⟨h1, h2, h3, h4⟩ := Errorf_inv _ _ _ _ ih.1 hE
    refine ⟨h1, fun hb => ?_⟩
    obtain ⟨hw, hs⟩ := ih.2 hb
    rw [h2, h3, h4]
    exact ⟨hw, hs⟩

/-- C14: the cursor invariant `0 ≤ start ≤ pos ≤ len(input)` holds for
`New(input, s)`; every public cursor operation that returns keeps it (`Next`,
`Peek`, `Ignore`, `IgnoreWhitespace`, `Accept`, `AcceptRun`, `AcceptAlpha`,
`AcceptDigits`, `Emit`, `Errorf`, and `AcceptSequence` with a literal that
fits); so does `Backup` right after a `Next`; hence it holds in every lexer
reached from `New` by sequences that respect the contract of `Backup`. -/
theorem cursor_invariant :
    (∀ (input : List Byte) (s : Option σ), Inv (New input s)) ∧
    (∀ (l l1 : Lexer σ) (r : Int), Inv l → Next l = .ok (r, l1) → Inv l1) ∧
    (∀ (l l1 : Lexer σ) (r : Int), Inv l → Peek l = .ok (r, l1) → Inv l1) ∧
    (∀ l : Lexer σ, Inv l → Inv (Ignore l)) ∧
    (∀ (fuel : Nat) (l l1 : Lexer σ), Inv l → IgnoreWhitespace fuel l = .ok l1 → Inv l1) ∧
    (∀ (l l1 : Lexer σ) (S : List Byte) (ok : Bool), Inv l → Accept l S = .ok (ok, l1) →
      Inv l1) ∧
    (∀ (fuel : Nat) (l l1 : Lexer σ) (S : List Byte), Inv l → AcceptRun fuel l S = .ok l1 →
      Inv l1) ∧
    (∀ (fuel : Nat) (l l1 : Lexer σ), Inv l → AcceptAlpha fuel l = .ok l1 → Inv l1) ∧
    (∀ (fuel : Nat) (l l1 : Lexer σ), Inv l → AcceptDigits fuel l = .ok l1 → Inv l1) ∧
    (∀ (l l1 : Lexer σ) (t : TokenType), Inv l → Emit l t = .ok l1 → Inv l1) ∧
    (∀ (l l1 : Lexer σ) (msg : List Byte) (s : Option σ), Inv l →
      Errorf l msg = .ok (s, l1) → Inv l1) ∧
    (∀ (l l1 : Lexer σ) (seq : List Byte) (ok : Bool), Inv l →
      l.pos + (seq.length : Int) ≤ (l.input.length : Int) →
      AcceptSequence l seq = .ok (ok, l1) → Inv l1) ∧
    (∀ (l l1 : Lexer σ) (r : Int), Inv l → Next l = .ok (r, l1) → Inv (Backup l1)) ∧
    (∀ (b : Bool) (l : Lexer σ), Reach b l → Inv l) :=
  ⟨Inv_New,
   fun l l1 r hi h => (Next_inv l l1 r hi h).1,
   fun l l1 r hi h => Peek_inv l l1 r hi h,
   fun l hi => Ignore_inv l hi,
   fun fuel l l1 hi h => IgnoreWhitespace_inv fuel l l1 hi h,
   fun l l1 S ok hi h => (Accept_inv l l1 S ok hi h).1,
   fun fuel l l1 S hi h => AcceptRun_inv fuel l l1 S hi h,
   fun fuel l l1 hi h => AcceptAlpha_inv fuel l l1 hi h,
   fun fuel l l1 hi h => AcceptDigits_inv fuel l l1 hi h,
   fun l l1 t hi h => Emit_inv l l1 t hi h,
   fun l l1 msg s hi h => (Errorf_inv l l1 msg s hi h).1,
   fun l l1 seq ok hi hfit h => (AcceptSequence_inv l l1 seq ok hi hfit h).1,
   fun l l1 r hi h => Backup_Next_inv l l1 r hi h,
   fun _ _ h => h.good.1⟩

/-- Instance: `Next` then `Backup` on `New("ab", nil)`. -/
theorem cursor_invariant_witness :
    Inv (Backup ({ New (str "ab") none with pos := 1, width := 1 } : Lexer Unit)) :=
  cursor_invariant.2.2.2.2.2.2.2.2.2.2.2.2.2 false _
    (Reach.backup (Reach.next (Reach.new (str "ab") none)
      (show Next (New (str "ab") none : Lexer Unit) =
        .ok (97, { New (str "ab") none with pos := 1, width := 1 }) by decide)))

/-! ## The capacity of the queue -/

theorem Emits.room {k : Nat} {l : Lexer σ} {r : Except Fault (Lexer σ)} (h : Emits k l r) :
    l.tokens.length + k ≤ 2 →
      r ≠ .error .blocked ∧ ∀ l1 : Lexer σ, r = .ok l1 → l1.tokens.length ≤ l.tokens.length + k := by
  induction h with
  | done k l =>
    intro _
    refine ⟨fun hc => Except.noConfusion hc, fun l1 h1 => ?_⟩
    simp only [Except.ok.injEq] at h1
    rw [← h1]
    omega
  | fault k l e he =>
    intro _
    refine ⟨fun hc => he (Except.error.inj hc), fun l1 h1 => Except.noConfusion h1⟩
  | quiet hq _ ih =>
    intro hk
    rw [← hq]
    exact ih (by rw [hq]; exact hk)
  | sent t hs _ ih =>
    intro hk
    obtain ⟨_, _, _, _, _, h6, _⟩ := send_fields _ _ t hs
    have hlen : ∀ (a : List Token), (a ++ [t]).length = a.length + 1 := by
      intro a
      simp
    obtain ⟨i1, i2⟩ := ih (by rw [h6, hlen]; omega)
    refine ⟨i1, fun l1 h1 => ?_⟩
    have := i2 l1 h1
    rw [h6, hlen] at this
    omega
  | stuck t hs =>
    intro hk
    rw [send_room _ t (by omega)] at hs
    exact Except.noConfusion hs

theorem NextToken_room (g : σ → StateFn σ) (hg : EmitsAtMost 2 g) :
    ∀ (fuel : Nat) (l : Lexer σ), l.tokens.length ≤ 2 →
      NextToken g fuel l ≠ .error .blocked ∧
      ∀ (t : Token) (l1 : Lexer σ), NextToken g fuel l = .ok (t, l1) →
        l1.tokens.length ≤ 2 := by
  intro fuel
  induction fuel with
  | zero =>
    intro l hl
    cases hq : l.tokens with
    | cons t ts =>
      rw [NextToken_queued g 0 l t ts hq]
      refine ⟨fun hc => Except.noConfusion hc, fun t1 l1 h1 => ?_⟩
      simp only [Except.ok.injEq, Prod.mk.injEq] at h1
      rw [← h1.2]
      rw [hq] at hl
      simp only [List.length_cons] at hl
      show ts.length ≤ 2
      omega
    | nil =>
      cases hs : l.state with
      | none =>
        rw [NextToken_terminal g 0 l hs hq]
        refine ⟨fun hc => Except.noConfusion hc, fun t1 l1 h1 => ?_⟩
        simp only [Except.ok.injEq, Prod.mk.injEq] at h1
        rw [← h1.2]
        exact hl
      | some s =>
        have : NextToken g 0 l = .error .fuel := by simp [NextToken, hs, hq]
        rw [this]
        exact ⟨fun hc => by simp at hc, fun t1 l1 h1 => Except.noConfusion h1⟩
  | succ n ih =>
    intro l hl
    cases hq : l.tokens with
    | cons t ts =>
      rw [NextToken_queued g _ l t ts hq]
      refine ⟨fun hc => Except.noConfusion hc, fun t1 l1 h1 => ?_⟩
      simp only [Except.ok.injEq, Prod.mk.injEq] at h1
      rw [← h1.2]
      rw [hq] at hl
      simp only [List.length_cons] at hl
      show ts.length ≤ 2
      omega
    | nil =>
      cases hs : l.state with
      | none =>
        rw [NextToken_terminal g _ l hs hq]
        refine ⟨fun hc => Except.noConfusion hc, fun t1 l1 h1 => ?_⟩
        simp only [Except.ok.injEq, Prod.mk.injEq] at h1
        rw [← h1.2]
        exact hl
      | some s =>
        rw [NextToken_step g n l s hs hq]
        have hE := (hg s l).room (by rw [hq]; simp)
        cases hr : g s l with
        | error e =>
          simp only [hr] at hE ⊢
          exact ⟨fun hc => hE.1 (by rw [Except.error.inj hc]),
            fun t1 l1 h1 => Except.noConfusion h1⟩
        | ok x =>
          obtain ⟨s1, l2⟩ := x
          simp only [hr] at hE ⊢
          have h2 := hE.2 l2 rfl
          rw [hq] at h2
          exact ih { l2 with state := s1 } (by simpa using h2)

theorem NextTokens_room (g : σ → StateFn σ) (hg : EmitsAtMost 2 g) (fuel : Nat) :
    ∀ (n : Nat) (l : Lexer σ), l.tokens.length ≤ 2 →
      NextTokens g fuel n l ≠ .error .blocked ∧
      ∀ (ts : List Token) (l1 : Lexer σ), NextTokens g fuel n l = .ok (ts, l1) →
        l1.tokens.length ≤ 2 := by
  intro n
  induction n with
  | zero =>
    intro l hl
    refine ⟨fun hc => Except.noConfusion hc, fun ts l1 h1 => ?_⟩
    simp only [NextTokens, Except.ok.injEq, Prod.mk.injEq] at h1
    rw [← h1.2]
    exact hl
  | succ n ih =>
    intro l hl
    obtain ⟨k1, k2⟩ := NextToken_room g hg fuel l hl
    simp only [NextTokens]
    cases hr : NextToken g fuel l with
    | error e =>
      rw [hr] at k1
      exact ⟨fun hc => k1 (by rw [Except.error.inj hc]),
        fun ts l1 h1 => Except.noConfusion h1⟩
    | ok x =>
      obtain ⟨t, l2⟩ := x
      obtain ⟨i1, i2⟩ := ih l2 (k2 t l2 hr)
      simp only
      cases hr2 : NextTokens g fuel n l2 with
      | error e =>
        rw [hr2] at i1
        exact ⟨fun hc => i1 (by rw [Except.error.inj hc]),
          fun ts l1 h1 => Except.noConfusion h1⟩
      | ok y =>
        obtain ⟨ts, l3⟩ := y
        refine ⟨fun hc => Except.noConfusion hc, fun ts1 l1 h1 => ?_⟩
        simp only [Except.ok.injEq, Prod.mk.injEq] at h1
        rw [← h1.2]
        exact i2 ts l3 hr2

/-- The state functions are consulted on lexers with an empty queue only. -/
theorem NextToken_congr (g g1 : σ → StateFn σ)
    (h : ∀ (s : σ) (l : Lexer σ), l.tokens = [] → g s l = g1 s l) :
    ∀ (fuel : Nat) (l : Lexer σ), NextToken g fuel l = NextToken g1 fuel l := by
  intro fuel
  induction fuel with
  | zero =>
    intro l
    cases hq : l.tokens with
    | cons t ts => rw [NextToken_queued g 0 l t ts hq, NextToken_queued g1 0 l t ts hq]
    | nil =>
      cases hs : l.state with
      | none => rw [NextToken_terminal g 0 l hs hq, NextToken_terminal g1 0 l hs hq]
      | some s => simp [NextToken, hs, hq]
  | succ n ih =>
    intro l
    cases hq : l.tokens with
    | cons t ts => rw [NextToken_queued g _ l t ts hq, NextToken_queued g1 _ l t ts hq]
    | nil =>
      cases hs : l.state with
      | none => rw [NextToken_terminal g _ l hs hq, NextToken_terminal g1 _ l hs hq]
      | some s =>
        rw [NextToken_step g n l s hs hq, NextToken_step g1 n l s hs hq, h s l hq]
        cases g1 s l with
        | error e => rfl
        | ok x => exact ih _

theorem Next_quiet (l : Lexer σ) :
    (∀ e : Fault, Next l = .error e → e ≠ Fault.blocked) ∧
    (∀ (r : Int) (l1 : Lexer σ), Next l = .ok (r, l1) → l1.tokens = l.tokens) := by
  unfold Next
  by_cases h1 : l.pos ≥ (l.input.length : Int)
  · rw [if_pos h1]
    refine ⟨fun e h => Except.noConfusion h, fun r l1 h => ?_⟩
    simp only [Except.ok.injEq, Prod.mk.injEq] at h
    rw [← h.2]
  · rw [if_neg h1]
    by_cases h2 : l.pos < 0
    · rw [if_pos h2]
      refine ⟨fun e h => ?_, fun r l1 h => Except.noConfusion h⟩
      rw [← Except.error.inj h]
      decide
    · rw [if_neg h2]
      refine ⟨fun e h => Except.noConfusion h, fun r l1 h => ?_⟩
      simp only [Except.ok.injEq, Prod.mk.injEq] at h
      rw [← h.2]

theorem Peek_quiet (l : Lexer σ) :
    (∀ e : Fault, Peek l = .error e → e ≠ Fault.blocked) ∧
    (∀ (r : Int) (l1 : Lexer σ), Peek l = .ok (r, l1) → l1.tokens = l.tokens) := by
  obtain ⟨n1, n2⟩ := Next_quiet l
  unfold Peek
  cases hN : Next l with
  | error e => exact ⟨fun e1 h => by rw [← Except.error.inj h]; exact n1 e hN,
      fun r l1 h => Except.noConfusion h⟩
  | ok x =>
    obtain ⟨r0, l0⟩ := x
    refine ⟨fun e h => Except.noConfusion h, fun r l1 h => ?_⟩
    simp only [Except.ok.injEq, Prod.mk.injEq] at h
    rw [← h.2]
    exact n2 r0 l0 hN

theorem Accept_quiet (l : Lexer σ) (valid : List Byte) :
    (∀ e : Fault, Accept l valid = .error e → e ≠ Fault.blocked) ∧
    (∀ (b : Bool) (l1 : Lexer σ), Accept l valid = .ok (b, l1) → l1.tokens = l.tokens) := by
  obtain ⟨n1, n2⟩ := Next_quiet l
  unfold Accept
  cases hN : Next l with
  | error e => exact ⟨fun e1 h => by rw [← Except.error.inj h]; exact n1 e hN,
      fun r l1 h => Except.noConfusion h⟩
  | ok x =>
    obtain ⟨r0, l0⟩ := x
    have ht := n2 r0 l0 hN
    by_cases hm : inSet valid r0 = true
    · simp only [if_pos hm]
      refine ⟨fun e h => Except.noConfusion h, fun r l1 h => ?_⟩
      simp only [Except.ok.injEq, Prod.mk.injEq] at h
      rw [← h.2]
      exact ht
    · simp only [if_neg hm]
      refine ⟨fun e h => Except.noConfusion h, fun r l1 h => ?_⟩
      simp only [Except.ok.injEq, Prod.mk.injEq] at h
      rw [← h.2]
      exact ht

theorem nextWhile_quiet (p : Int → Bool) : ∀ (fuel : Nat) (l : Lexer σ),
    (∀ e : Fault, nextWhile p fuel l = .error e → e ≠ Fault.blocked) ∧
    (∀ l1 : Lexer σ, nextWhile p fuel l = .ok l1 → l1.tokens = l.tokens) := by
  intro fuel
  induction fuel with
  | zero =>
    intro l
    refine ⟨fun e h => ?_, fun l1 h => Except.noConfusion h⟩
    rw [← Except.error.inj h]
    decide
  | succ n ih =>
    intro l
    obtain ⟨n1, n2⟩ := Next_quiet l
    simp only [nextWhile]
    cases hN : Next l with
    | error e => exact ⟨fun e1 h => by rw [← Except.error.inj h]; exact n1 e hN,
        fun l1 h => Except.noConfusion h⟩
    | ok x =>
      obtain ⟨r0, l0⟩ := x
      have ht := n2 r0 l0 hN
      by_cases hm : p r0 = true
      · simp only [if_pos hm]
        obtain ⟨i1, i2⟩ := ih l0
        exact ⟨i1, fun l1 h => (i2 l1 h).trans ht⟩
      · simp only [if_neg hm]
        refine ⟨fun e h => Except.noConfusion h, fun l1 h => ?_⟩
        simp only [Except.ok.injEq] at h
        rw [← h]
        exact ht

theorem ignoreWhile_quiet : ∀ (fuel : Nat) (l : Lexer σ),
    (∀ e : Fault, ignoreWhile fuel l = .error e → e ≠ Fault.blocked) ∧
    (∀ l1 : Lexer σ, ignoreWhile fuel l = .ok l1 → l1.tokens = l.tokens) := by
  intro fuel
  induction fuel with
  | zero =>
    intro l
    refine ⟨fun e h => ?_, fun l1 h => Except.noConfusion h⟩
    rw [← Except.error.inj h]
    decide
  | succ n ih =>
    intro l
    obtain ⟨n1, n2⟩ := Next_quiet l
    simp only [ignoreWhile]
    cases hN : Next l with
    | error e => exact ⟨fun e1 h => by rw [← Except.error.inj h]; exact n1 e hN,
        fun l1 h => Except.noConfusion h⟩
    | ok x =>
      obtain ⟨r0, l0⟩ := x
      have ht := n2 r0 l0 hN
      by_cases hm : IsSpace r0 = true
      · simp only [if_pos hm]
        obtain ⟨i1, i2⟩ := ih (Ignore l0)
        exact ⟨i1, fun l1 h => (i2 l1 h).trans ht⟩
      · simp only [if_neg hm]
        refine ⟨fun e h => Except.noConfusion h, fun l1 h => ?_⟩
        simp only [Except.ok.injEq] at h
        rw [← h]
        exact ht

/-- A loop followed by `Backup` neither sends nor blocks. -/
theorem loop_Backup_quiet (l : Lexer σ) (r : Except Fault (Lexer σ))
    (hq : (∀ e : Fault, r = .error e → e ≠ Fault.blocked) ∧
      (∀ l1 : Lexer σ, r = .ok l1 → l1.tokens = l.tokens)) :
    (∀ e : Fault, (match r with
        | .error e => (.error e : Except Fault (Lexer σ))
        | .ok l1 => .ok (Backup l1)) = .error e → e ≠ Fault.blocked) ∧
    (∀ l2 : Lexer σ, (match r with
        | .error e => (.error e : Except Fault (Lexer σ))
        | .ok l1 => .ok (Backup l1)) = .ok l2 → l2.tokens = l.tokens) := by
  cases r with
  | error e => exact ⟨fun e1 h => by rw [← Except.error.inj h]; exact hq.1 e rfl,
      fun l2 h => Except.noConfusion h⟩
  | ok l1 =>
    refine ⟨fun e h => Except.noConfusion h, fun l2 h => ?_⟩
    simp only [Except.ok.injEq] at h
    rw [← h]
    exact hq.2 l1 rfl

/-- A send followed by the end of the step is one attempted send. -/
theorem Emits.send_last (k : Nat) (l : Lexer σ) (t : Token) (f : Lexer σ → Lexer σ)
    (hf : ∀ l1 : Lexer σ, (f l1).tokens = l1.tokens) :
    Emits (k + 1) l (match send l t with
      | .error e => .error e
      | .ok l1 => .ok (f l1)) := by
  cases hs : send l t with
  | error e => exact Emits.stuck t hs
  | ok l1 => exact Emits.sent t hs (Emits.quiet (hf l1) (Emits.done k (f l1)))

theorem Emits.mono {k : Nat} {l : Lexer σ} {r : Except Fault (Lexer σ)} (h : Emits k l r) :
    Emits (k + 1) l r := by
  induction h with
  | done k l => exact Emits.done _ l
  | fault k l e he => exact Emits.fault _ l e he
  | quiet hq _ ih => exact Emits.quiet hq ih
  | sent t hs _ ih => exact Emits.sent t hs ih
  | stuck t hs => exact Emits.stuck t hs

theorem CurrentInput_fault (l : Lexer σ) (e : Fault) (h : CurrentInput l = .error e) :
    e ≠ Fault.blocked := by
  unfold CurrentInput at h
  cases hs : slice l.input l.start l.pos with
  | none =>
    rw [hs] at h
    rw [← Except.error.inj h]
    decide
  | some s =>
    rw [hs] at h
    exact Except.noConfusion h

theorem Emit_emits (k : Nat) (l : Lexer σ) (tokenType : TokenType) :
    Emits (k + 1) l (Emit l tokenType) := by
  unfold Emit
  cases hC : CurrentInput l with
  | error e => exact Emits.fault _ l e (CurrentInput_fault l e hC)
  | ok lit => exact Emits.send_last k l _ (fun l1 => { l1 with start := l1.pos }) (fun _ => rfl)

theorem Errorf_emits (k : Nat) (l : Lexer σ) (msg : List Byte) :
    Emits (k + 1) l (match (Errorf l msg : Except Fault (Option σ × Lexer σ)) with
      | .error e => .error e
      | .ok (_, l1) => .ok l1) := by
  unfold Errorf
  cases hs : send l { Typ := ILLEGAL, Literal := msg } with
  | error e => exact Emits.stuck _ hs
  | ok l1 => exact Emits.sent _ hs (Emits.done k l1)

theorem testGrammar_emits (fuel : Nat) : EmitsAtMost 2 (testGrammar fuel) := by
  intro s l
  cases s with
  | lex =>
    simp only [testGrammar, bind, Except.bind, pure, Except.pure]
    obtain ⟨p1, p2⟩ := Peek_quiet l
    cases hP : Peek l with
    | error e => exact Emits.fault _ l e (p1 e hP)
    | ok x =>
      obtain ⟨r, l1⟩ := x
      have t1 := p2 r l1 hP
      dsimp only
      by_cases hr : r = -1
      · rw [if_pos hr]
        exact Emits.quiet t1 (Emits.done _ l1)
      · rw [if_neg hr]
        obtain ⟨w1, w2⟩ := loop_Backup_quiet l1 _ (ignoreWhile_quiet fuel l1)
        cases hW : IgnoreWhitespace fuel l1 with
        | error e => exact Emits.fault _ l e (w1 e hW)
        | ok l2 =>
          have t2 := (w2 l2 hW).trans t1
          dsimp only
          obtain ⟨q1, q2⟩ := Peek_quiet l2
          cases hP2 : Peek l2 with
          | error e => exact Emits.fault _ l e (q1 e hP2)
          | ok y =>
            obtain ⟨r2, l3⟩ := y
            have t3 := (q2 r2 l3 hP2).trans t2
            dsimp only
            by_cases ha : IsAlpha r2 = true
            · rw [if_pos ha]
              exact Emits.quiet t3 (Emits.done _ l3)
            · rw [if_neg ha]
              obtain ⟨u1, u2⟩ := Peek_quiet l3
              cases hP3 : Peek l3 with
              | error e => exact Emits.fault _ l e (u1 e hP3)
              | ok z =>
                obtain ⟨r3, l4⟩ := z
                have t4 := (u2 r3 l4 hP3).trans t3
                dsimp only
                by_cases hd : IsDigit r3 = true
                · rw [if_pos hd]
                  exact Emits.quiet t4 (Emits.done _ l4)
                · rw [if_neg hd]
                  exact Emits.quiet t4 (Emits.done _ l4)
  | lexWord =>
    simp only [testGrammar, bind, Except.bind, pure, Except.pure]
    obtain ⟨w1, w2⟩ := loop_Backup_quiet l _ (nextWhile_quiet IsAlpha fuel l)
    cases hA : AcceptAlpha fuel l with
    | error e => exact Emits.fault _ l e (w1 e hA)
    | ok l1 =>
      dsimp only
      have hE := Emit_emits 1 l1 word
      cases hr : Emit l1 word with
      | error e =>
        rw [hr] at hE
        exact Emits.quiet (w2 l1 hA) hE
      | ok l2 =>
        rw [hr] at hE
        exact Emits.quiet (w2 l1 hA) hE
  | lexNumber =>
    simp only [testGrammar, bind, Except.bind, pure, Except.pure]
    obtain ⟨w1, w2⟩ := loop_Backup_quiet l _ (nextWhile_quiet IsDigit fuel l)
    cases hA : AcceptDigits fuel l with
    | error e => exact Emits.fault _ l e (w1 e hA)
    | ok l1 =>
      dsimp only
      have hE := Emit_emits 1 l1 number
      cases hr : Emit l1 number with
      | error e =>
        rw [hr] at hE
        exact Emits.quiet (w2 l1 hA) hE
      | ok l2 =>
        rw [hr] at hE
        exact Emits.quiet (w2 l1 hA) hE
  | lexPunctuation =>
    simp only [testGrammar, bind, Except.bind, pure, Except.pure]
    obtain ⟨a1, a2⟩ := Accept_quiet l (str ":")
    cases hA : Accept l (str ":") with
    | error e => exact Emits.fault _ l e (a1 e hA)
    | ok x =>
      obtain ⟨ok, l1⟩ := x
      have t1 := a2 ok l1 hA
      dsimp only
      cases ok with
      | false =>
        simp only [Bool.not_false, if_true]
        obtain ⟨n1, n2⟩ := Next_quiet l1
        cases hN : Next l1 with
        | error e => exact Emits.fault _ l e (n1 e hN)
        | ok y =>
          obtain ⟨r, l2⟩ := y
          have t2 := (n2 r l2 hN).trans t1
          dsimp only
          have hE := Errorf_emits 1 l2 (str "bad punctuation")
          cases hr : (Errorf l2 (str "bad punctuation") :
              Except Fault (Option TestState × Lexer TestState)) with
          | error e =>
            rw [hr] at hE
            exact Emits.quiet t2 hE
          | ok z =>
            obtain ⟨s1, l3⟩ := z
            rw [hr] at hE
            exact Emits.quiet t2 hE
      | true =>
        simp only [Bool.not_true]
        have hE := Emit_emits 1 l1 punctuation
        cases hr : Emit l1 punctuation with
        | error e =>
          rw [hr] at hE
          exact Emits.quiet t1 hE
        | ok l2 =>
          rw [hr] at hE
          exact Emits.quiet t1 hE

/-- C19: `NextToken` consults the state functions on lexers with an empty
queue only (changing them elsewhere changes no result); hence, for a lexer
made by `New` and driven through `NextToken`, with state functions that
attempt at most 2 sends (`Emit`, `Errorf`) per invocation, no send ever finds
the queue full and the queue never holds more than 2 tokens. -/
theorem queue_capacity_suffices (g : σ → StateFn σ) :
    (∀ (g1 : σ → StateFn σ), (∀ (s : σ) (l : Lexer σ), l.tokens = [] → g s l = g1 s l) →
      ∀ (fuel : Nat) (l : Lexer σ), NextToken g fuel l = NextToken g1 fuel l) ∧
    (EmitsAtMost 2 g →
      ∀ (input : List Byte) (s0 : Option σ) (fuel n : Nat),
        NextTokens g fuel n (New input s0) ≠ .error .blocked ∧
        ∀ (ts : List Token) (l1 : Lexer σ),
          NextTokens g fuel n (New input s0) = .ok (ts, l1) → l1.tokens.length ≤ 2) ∧
    (∀ (k : Nat) (l : Lexer σ) (r : Except Fault (Lexer σ)), Emits k l r →
      l.tokens.length + k ≤ 2 →
      r ≠ .error .blocked ∧ ∀ l1 : Lexer σ, r = .ok l1 → l1.tokens.length ≤ 2) := by
  refine ⟨fun g1 h => NextToken_congr g g1 h, fun hg input s0 fuel n => ?_, ?_⟩
  · exact NextTokens_room g hg fuel n (New input s0) (by simp [New])
  · intro k l r h hk
    obtain ⟨h1, h2⟩ := h.room hk
    exact ⟨h1, fun l1 hl => le_trans (h2 l1 hl) hk⟩

/-- Instance: the grammar of `TestLexing`, whose state functions attempt at
most one send each, run on the input of the test. -/
theorem queue_capacity_suffices_witness :
    NextTokens (testGrammar 54) 2 15 (New testInput (some TestState.lex)) ≠ .error .blocked ∧
    ∀ (ts : List Token) (l1 : Lexer TestState),
      NextTokens (testGrammar 54) 2 15 (New testInput (some TestState.lex)) = .ok (ts, l1) →
      l1.tokens.length ≤ 2 :=
  (queue_capacity_suffices (testGrammar 54)).2.1 (testGrammar_emits 54) testInput
    (some TestState.lex) 2 15

end Lex
